import Mathlib

/-!
# Indexed binary min-heap (`minheap.c`)

A shallow embedding of the C source `src/minheap.c` and a verification of the
properties stated for it.

Modelling decisions.

* `int` is `Int`.  The only arithmetic in the source is `2*i`, `2*i+1`, `i/2`,
  `size+1` and `size-1`.  The operations of the heap apply it to positions
  bounded by `size`, and are modelled without overflow: their results speak
  about heaps with fewer than `2^30` nodes, where `2*i+1` fits a 32-bit `int`.
  For `leftIdx` and `rightIdx` on an arbitrary `int` argument the product is
  also given in 32-bit arithmetic (`wrap32`, `leftIdx32`, `rightIdx32`).  C
  division truncates towards zero: `Int.tdiv`.
* `heap->arr` and `heap->indexMap` are the contents of memory read through the
  two pointers, a map from the C subscript to the stored value.  `newHeap`
  receives the indeterminate contents that `malloc` hands out as arguments and
  overwrites what the source overwrites.  Whether a subscript lies inside the
  block that `newHeap` requested (`capacity` elements each) is a separate
  question from what the functions compute; it is expressed by `inNodeArray`
  and `inIndexMap` and is not enforced by these maps.
* The `while (true)` loop of `bubbleDown` and the recursion of `bubbleUp` run on
  an explicit iteration budget; running out of budget is the outcome
  `unfinished`, and `exit(1)` is the outcome `exited 1 heap`, with the heap as
  it is when the process ends.  Every statement that a call returns is proved
  with the outcome `returned`.
-/

namespace MinHeapC

/-- A heap node.  The header `minheap.h` is not among the sources; the fields are
the two the source reads and writes, both `int`. -/
structure HeapNode where
  priority : Int
  id : Int
deriving DecidableEq

/-- The heap object, with the four fields the source uses: `size`, `capacity`,
the node array `arr` (used from subscript 1) and `indexMap` from id to position. -/
structure MinHeap where
  size : Int
  capacity : Int
  arr : Int → HeapNode
  indexMap : Int → Int

/-- How a call ends: it returns a value; or it ends the process with
`exit(code)`, leaving the heap object as it is at that moment; or the iteration
budget of the model is spent. -/
inductive Outcome (α : Type) where
  | returned : α → Outcome α
  | exited : Int → MinHeap → Outcome α
  | unfinished : Outcome α

def ROOT_INDEX : Int := 1

def NOTHING : Int := -1

/-- Source: `isValidIndex`. -/
def isValidIndex (heap : MinHeap) (maybeIdx : Int) : Bool :=
  if maybeIdx < 1 ∨ maybeIdx > heap.size then false else true

/-- Source: `priorityAt`. -/
def priorityAt (heap : MinHeap) (nodeIndex : Int) : Int :=
  if !isValidIndex heap nodeIndex then NOTHING else (heap.arr nodeIndex).priority

/-- Source: `nodeAt` (no validity check in the source). -/
def nodeAt (heap : MinHeap) (nodeIndex : Int) : HeapNode :=
  heap.arr nodeIndex

/-- Source: `indexOf`. -/
def indexOf (heap : MinHeap) (id : Int) : Int :=
  heap.indexMap id

/-- Source: `idAt`. -/
def idAt (heap : MinHeap) (nodeIndex : Int) : Int :=
  if !isValidIndex heap nodeIndex then NOTHING else (heap.arr nodeIndex).id

/-- Source: `leftIdx`. -/
def leftIdx (heap : MinHeap) (nodeIndex : Int) : Int :=
  if !isValidIndex heap (2 * nodeIndex) then NOTHING else 2 * nodeIndex

/-- Source: `rightIdx`. -/
def rightIdx (heap : MinHeap) (nodeIndex : Int) : Int :=
  if !isValidIndex heap (2 * nodeIndex + 1) then NOTHING else 2 * nodeIndex + 1

/-- Source: `parentIdx`; `/` of C is truncating division. -/
def parentIdx (heap : MinHeap) (nodeIndex : Int) : Int :=
  if !isValidIndex heap (Int.tdiv nodeIndex 2) then NOTHING else Int.tdiv nodeIndex 2

/-- The value a 32-bit `int` holds when an arithmetic result `x` does not fit:
two's-complement wrap-around into `[-2^31, 2^31)`.  The C standard leaves signed
overflow undefined; this is what the compiled code computes. -/
def wrap32 (x : Int) : Int :=
  (x + 2147483648) % 4294967296 - 2147483648

/-- Source: `leftIdx`, with `2*nodeIndex` computed in 32-bit `int` arithmetic. -/
def leftIdx32 (heap : MinHeap) (nodeIndex : Int) : Int :=
  if !isValidIndex heap (wrap32 (2 * nodeIndex)) then NOTHING else wrap32 (2 * nodeIndex)

/-- Source: `rightIdx`, with `2*nodeIndex +1` computed in 32-bit `int`
arithmetic. -/
def rightIdx32 (heap : MinHeap) (nodeIndex : Int) : Int :=
  if !isValidIndex heap (wrap32 (wrap32 (2 * nodeIndex) + 1)) then NOTHING
  else wrap32 (wrap32 (2 * nodeIndex) + 1)

/-- The assignment `heap->indexMap[i] = v`. -/
def setIndexMap (heap : MinHeap) (i v : Int) : MinHeap :=
  { heap with indexMap := Function.update heap.indexMap i v }

/-- The assignment `heap->arr[i].id = v`. -/
def setId (heap : MinHeap) (i v : Int) : MinHeap :=
  { heap with arr := Function.update heap.arr i { heap.arr i with id := v } }

/-- The assignment `heap->arr[i].priority = v`. -/
def setPriority (heap : MinHeap) (i v : Int) : MinHeap :=
  { heap with arr := Function.update heap.arr i { heap.arr i with priority := v } }

/-- The assignment `heap->arr[i] = n`. -/
def setNode (heap : MinHeap) (i : Int) (n : HeapNode) : MinHeap :=
  { heap with arr := Function.update heap.arr i n }

/-- Source: `swap`, statement by statement. -/
def swap (heap : MinHeap) (index1 index2 : Int) : MinHeap :=
  if !isValidIndex heap index1 || !isValidIndex heap index2 then heap
  else
    let tempID := idAt heap index1
    let tempPrio := priorityAt heap index1
    let h1 := setIndexMap heap tempID index2
    let h2 := setIndexMap h1 (idAt h1 index2) index1
    let h3 := setId h2 index1 (idAt h2 index2)
    let h4 := setPriority h3 index1 (priorityAt h3 index2)
    let h5 := setId h4 index2 tempID
    setPriority h5 index2 tempPrio

/-- Source: `bubbleUp`; one unit of budget per call of the recursion. -/
def bubbleUpFuel : Nat → MinHeap → Int → Outcome MinHeap
  | 0, _, _ => Outcome.unfinished
  | fuel + 1, heap, nodeIndex =>
    if !isValidIndex heap nodeIndex then Outcome.returned heap
    else if nodeIndex = ROOT_INDEX then Outcome.returned heap
    else
      let parIndex := parentIdx heap nodeIndex
      if parIndex = NOTHING then Outcome.returned heap
      else if priorityAt heap nodeIndex < priorityAt heap parIndex then
        bubbleUpFuel fuel (swap heap nodeIndex parIndex) parIndex
      else Outcome.returned heap

/-- Source: `bubbleUp`.  The recursion halves a valid position at each call, so
`nodeIndex` calls are more than it can make. -/
def bubbleUp (heap : MinHeap) (nodeIndex : Int) : Outcome MinHeap :=
  bubbleUpFuel (nodeIndex.toNat + 1) heap nodeIndex

/-- The body of the `while (true)` loop of `bubbleDown`; one unit of budget per
iteration. -/
def bubbleDownLoop : Nat → MinHeap → Int → Outcome MinHeap
  | 0, _, _ => Outcome.unfinished
  | fuel + 1, heap, curRoot =>
    let left := leftIdx heap curRoot
    let right := rightIdx heap curRoot
    if left = NOTHING ∧ right = NOTHING then Outcome.returned heap
    else if left = NOTHING ∧ priorityAt heap curRoot < priorityAt heap right then
      Outcome.returned heap
    else if left = NOTHING ∧ priorityAt heap curRoot > priorityAt heap right then
      bubbleDownLoop fuel (swap heap curRoot right) right
    else if right = NOTHING ∧ priorityAt heap curRoot < priorityAt heap left then
      Outcome.returned heap
    else if right = NOTHING ∧ priorityAt heap curRoot > priorityAt heap left then
      bubbleDownLoop fuel (swap heap curRoot left) left
    else if priorityAt heap curRoot > priorityAt heap left
        ∧ priorityAt heap right > priorityAt heap left then
      bubbleDownLoop fuel (swap heap curRoot left) left
    else if priorityAt heap curRoot > priorityAt heap right
        ∧ priorityAt heap left > priorityAt heap right then
      bubbleDownLoop fuel (swap heap curRoot right) right
    else Outcome.returned heap

/-- Source: `bubbleDown`.  The loop moves `curRoot` to a larger valid position or
to `NOTHING`, so `size + 2` iterations are more than it can make. -/
def bubbleDown (heap : MinHeap) : Outcome MinHeap :=
  if !isValidIndex heap ROOT_INDEX then Outcome.returned heap
  else bubbleDownLoop (heap.size.toNat + 2) heap ROOT_INDEX

/-- Source: `newHeap`.  `none` is the `NULL` result.  `arr0` and `map0` are the
indeterminate contents of the memory behind the two pointers; the loop sets the
first `capacity` entries of the index map to `NOTHING`. -/
def newHeap (capacity : Int) (arr0 : Int → HeapNode) (map0 : Int → Int) : Option MinHeap :=
  if capacity < 0 then none
  else some
    { size := 0
      capacity := capacity
      arr := arr0
      indexMap := fun i => if 0 ≤ i ∧ i < capacity then NOTHING else map0 i }

/-- Source: `getMin`. -/
def getMin (heap : MinHeap) : HeapNode :=
  nodeAt heap ROOT_INDEX

/-- Source: `extractMin`. -/
def extractMin (heap : MinHeap) : Outcome (HeapNode × MinHeap) :=
  if heap.size = 0 then Outcome.exited 1 heap
  else
    let min := nodeAt heap ROOT_INDEX
    let minID := (heap.arr ROOT_INDEX).id
    let h1 := swap heap ROOT_INDEX heap.size
    let h2 := setIndexMap h1 minID NOTHING
    let h3 := { h2 with size := h2.size - 1 }
    match bubbleDown h3 with
    | Outcome.returned h4 => Outcome.returned (min, h4)
    | Outcome.exited c g => Outcome.exited c g
    | Outcome.unfinished => Outcome.unfinished

/-- Source: `insert`. -/
def insert (heap : MinHeap) (priority id : Int) : Outcome MinHeap :=
  let newNode : HeapNode := { priority := priority, id := id }
  let h1 := { heap with size := heap.size + 1 }
  let h2 := setIndexMap h1 id h1.size
  let h3 := setNode h2 h2.size newNode
  bubbleUp h3 h3.size

/-- Source: `decreasePriority`. -/
def decreasePriority (heap : MinHeap) (id newPriority : Int) : Outcome (Bool × MinHeap) :=
  let index := heap.indexMap id
  if !isValidIndex heap index then Outcome.returned (false, heap)
  else if (heap.arr index).priority > newPriority then
    let h1 := setPriority heap index newPriority
    match bubbleUp h1 index with
    | Outcome.returned h2 => Outcome.returned (true, h2)
    | Outcome.exited c g => Outcome.exited c g
    | Outcome.unfinished => Outcome.unfinished
  else Outcome.returned (false, heap)

/-! ## Specification vocabulary and example heaps -/

/-- `h2` is obtained from `h1` by a finite sequence of calls of `swap`. -/
inductive Swaps : MinHeap → MinHeap → Prop where
  | refl (h : MinHeap) : Swaps h h
  | step (h : MinHeap) (p q : Int) (h2 : MinHeap) : Swaps (swap h p q) h2 → Swaps h h2


/-- Iterations the loop of `bubbleDown` can still make from position `c`. -/
def downBudget (h : MinHeap) (c : Int) : Nat :=
  if c = NOTHING then 1 else (h.size - c).toNat + 2

/-- The heap property: every position in `[2, size]` holds a priority that is
not below the priority at its parent position. -/
def HeapProperty (h : MinHeap) : Prop :=
  ∀ p : Int, 2 ≤ p → p ≤ h.size → (h.arr (p / 2)).priority ≤ (h.arr p).priority

/-- Id `i` is present: it is the id of a node in positions `1..size`. -/
def Present (h : MinHeap) (i : Int) : Prop :=
  ∃ p : Int, 1 ≤ p ∧ p ≤ h.size ∧ (h.arr p).id = i

/-- Index consistency (a): the index map sends the id stored at a position in
`[1, size]` to that position. -/
def PositionsIndexed (h : MinHeap) : Prop :=
  ∀ p : Int, 1 ≤ p → p ≤ h.size → h.indexMap (h.arr p).id = p

/-- Index consistency (b): an id in `[0, capacity)` that is not present has
`NOTHING` in the index map. -/
def AbsentMarked (h : MinHeap) : Prop :=
  ∀ i : Int, 0 ≤ i → i < h.capacity → ¬ Present h i → h.indexMap i = NOTHING

/-- Index consistency: (a) and (b). -/
def IndexConsistent (h : MinHeap) : Prop :=
  PositionsIndexed h ∧ AbsentMarked h

/-- The nodes stored in positions `1..size`, with multiplicity. -/
def nodes (h : MinHeap) : Multiset HeapNode :=
  (Finset.Icc 1 h.size).val.map h.arr

/-- The documented preconditions of `insert`. -/
def InsertPre (h : MinHeap) (id : Int) : Prop :=
  ¬ Present h id ∧ 0 ≤ id ∧ id < h.capacity ∧ h.size < h.capacity

/-- Heap states reached from `newHeap` by calls of `insert`, `extractMin` and
`decreasePriority` that satisfy their preconditions and return. -/
inductive Reachable : MinHeap → Prop where
  | init (capacity : Int) (arr0 : Int → HeapNode) (map0 : Int → Int) (h : MinHeap) :
      newHeap capacity arr0 map0 = some h → Reachable h
  | insert (h : MinHeap) (priority id : Int) (h2 : MinHeap) :
      Reachable h → InsertPre h id → insert h priority id = Outcome.returned h2 →
      Reachable h2
  | extractMin (h : MinHeap) (n : HeapNode) (h2 : MinHeap) :
      Reachable h → 0 < h.size → extractMin h = Outcome.returned (n, h2) → Reachable h2
  | decreasePriority (h : MinHeap) (id newPriority : Int) (b : Bool) (h2 : MinHeap) :
      Reachable h → 0 ≤ id → id < h.capacity →
      decreasePriority h id newPriority = Outcome.returned (b, h2) → Reachable h2

/-- The caller's loop `insert(heap, p, id)` over a list of `(priority, id)` pairs. -/
def insertAll : List (Int × Int) → MinHeap → Outcome MinHeap
  | [], h => Outcome.returned h
  | (p, i) :: rest, h =>
    match insert h p i with
    | Outcome.returned h2 => insertAll rest h2
    | Outcome.exited c g => Outcome.exited c g
    | Outcome.unfinished => Outcome.unfinished

/-- The caller's loop of `n` calls of `extractMin`, collecting the returned nodes. -/
def extractN : Nat → MinHeap → Outcome (List HeapNode × MinHeap)
  | 0, h => Outcome.returned ([], h)
  | n + 1, h =>
    match extractMin h with
    | Outcome.returned (x, h2) =>
      match extractN n h2 with
      | Outcome.returned (xs, h3) => Outcome.returned (x :: xs, h3)
      | Outcome.exited c g => Outcome.exited c g
      | Outcome.unfinished => Outcome.unfinished
    | Outcome.exited c g => Outcome.exited c g
    | Outcome.unfinished => Outcome.unfinished

/-- The heap a call returned, or `d` when it did not return. -/
def heapOf (o : Outcome MinHeap) (d : MinHeap) : MinHeap :=
  match o with
  | Outcome.returned h => h
  | _ => d

/-- The heap left by a call that also returns a value, or `d`. -/
def heapOf2 {α : Type} (o : Outcome (α × MinHeap)) (d : MinHeap) : MinHeap :=
  match o with
  | Outcome.returned (_, h) => h
  | _ => d

/-- The value a call returned together with a heap, or `d`. -/
def valueOf {α : Type} (o : Outcome (α × MinHeap)) (d : α) : α :=
  match o with
  | Outcome.returned (a, _) => a
  | _ => d

/-- Example: `newHeap(5)` on memory that happens to hold zeros. -/
def tie0 : MinHeap :=
  { size := 0, capacity := 5, arr := fun _ => ⟨0, 0⟩,
    indexMap := fun i => if 0 ≤ i ∧ i < 5 then NOTHING else 0 }

/-- Example: `tie0` after `insert(heap, 1, 0)`. -/
def tie1 : MinHeap := heapOf (insert tie0 1 0) tie0

/-- Example: `tie1` after `insert(heap, 3, 1)`. -/
def tie2 : MinHeap := heapOf (insert tie1 3 1) tie0

/-- Example: `tie2` after `insert(heap, 3, 2)`. -/
def tie3 : MinHeap := heapOf (insert tie2 3 2) tie0

/-- Example: `tie3` after `insert(heap, 5, 3)`; priorities `1, 3, 3, 5`. -/
def tie4 : MinHeap := heapOf (insert tie3 5 3) tie0

/-- Example: `tie4` after `extractMin(heap)`. -/
def tie5 : MinHeap := heapOf2 (extractMin tie4) tie0

/-- The heap property everywhere except between position `i` and its parent,
with the parent of `i` not above the children of `i`: the state in which
`bubbleUp` is called on `i`. -/
def HeapExcept (h : MinHeap) (i : Int) : Prop :=
  (∀ p : Int, 2 ≤ p → p ≤ h.size → p ≠ i →
      (h.arr (p / 2)).priority ≤ (h.arr p).priority) ∧
  (∀ c : Int, 2 ≤ c → c ≤ h.size → c / 2 = i → 2 ≤ i →
      (h.arr (i / 2)).priority ≤ (h.arr c).priority)

/-- The state of `insert` just before its call of `bubbleUp`: size incremented,
index map and node array written. -/
def appended (h : MinHeap) (priority id : Int) : MinHeap :=
  { size := h.size + 1
    capacity := h.capacity
    arr := Function.update h.arr (h.size + 1) { priority := priority, id := id }
    indexMap := Function.update h.indexMap id (h.size + 1) }

/-- The state of `extractMin` just before its call of `bubbleDown`: root and last
node swapped, the removed id marked absent, size decremented. -/
def removed (h : MinHeap) : MinHeap :=
  { size := h.size - 1
    capacity := (swap h ROOT_INDEX h.size).capacity
    arr := (swap h ROOT_INDEX h.size).arr
    indexMap := Function.update (swap h ROOT_INDEX h.size).indexMap (h.arr ROOT_INDEX).id NOTHING }

/-- Example: the `(priority, id)` pairs inserted to build `tie4`. -/
def tieList : List (Int × Int) := [(1, 0), (3, 1), (3, 2), (5, 3)]

/-- The node `insert` stores for a `(priority, id)` pair. -/
def nodeOfPair (x : Int × Int) : HeapNode := { priority := x.1, id := x.2 }

/-- The index map leads from id `j` to a position in `[1, size]` that holds the
node `n`. -/
def Stored (h : MinHeap) (j : Int) (n : HeapNode) : Prop :=
  (1 ≤ h.indexMap j ∧ h.indexMap j ≤ h.size) ∧ h.arr (h.indexMap j) = n

/-- One iteration of the `while (true)` loop of `bubbleDown`, branch by branch:
`none` when the iteration executes `return`, otherwise the heap and the value of
`curRoot` with which the next iteration starts. -/
def bubbleDownIter (heap : MinHeap) (curRoot : Int) : Option (MinHeap × Int) :=
  let left := leftIdx heap curRoot
  let right := rightIdx heap curRoot
  if left = NOTHING ∧ right = NOTHING then none
  else if left = NOTHING ∧ priorityAt heap curRoot < priorityAt heap right then none
  else if left = NOTHING ∧ priorityAt heap curRoot > priorityAt heap right then
    some (swap heap curRoot right, right)
  else if right = NOTHING ∧ priorityAt heap curRoot < priorityAt heap left then none
  else if right = NOTHING ∧ priorityAt heap curRoot > priorityAt heap left then
    some (swap heap curRoot left, left)
  else if priorityAt heap curRoot > priorityAt heap left
      ∧ priorityAt heap right > priorityAt heap left then
    some (swap heap curRoot left, left)
  else if priorityAt heap curRoot > priorityAt heap right
      ∧ priorityAt heap left > priorityAt heap right then
    some (swap heap curRoot right, right)
  else none

/-- Subscript `i` lies inside the node array of `heap`: `newHeap` requests
`sizeof(HeapNode) * capacity` bytes for `heap->arr`, the subscripts
`0 .. capacity - 1`. -/
def inNodeArray (heap : MinHeap) (i : Int) : Prop :=
  0 ≤ i ∧ i < heap.capacity

instance (heap : MinHeap) (i : Int) : Decidable (inNodeArray heap i) :=
  inferInstanceAs (Decidable (0 ≤ i ∧ i < heap.capacity))

/-- Subscript `i` lies inside the index map of `heap`: `newHeap` requests
`sizeof(int) * capacity` bytes for `heap->indexMap`, the subscripts
`0 .. capacity - 1`. -/
def inIndexMap (heap : MinHeap) (i : Int) : Prop :=
  0 ≤ i ∧ i < heap.capacity

instance (heap : MinHeap) (i : Int) : Decidable (inIndexMap heap i) :=
  inferInstanceAs (Decidable (0 ≤ i ∧ i < heap.capacity))

/-- The subscript of `heap->arr` that `insert` writes: the source increments
`heap->size` and then assigns `heap->arr[heap->size] = newNode`. -/
def insertArrWrite (heap : MinHeap) : Int :=
  heap.size + 1

/-- The subscript of `heap->indexMap` that `insert` writes:
`heap->indexMap[id] = heap->size`. -/
def insertMapWrite (id : Int) : Int :=
  id

/-- Example: `newHeap(1)` on memory that happens to hold zeros. -/
def one0 : MinHeap :=
  { size := 0, capacity := 1, arr := fun _ => ⟨0, 0⟩,
    indexMap := fun i => if 0 ≤ i ∧ i < 1 then NOTHING else 0 }

/-- Example: `newHeap(3)` on memory that happens to hold zeros. -/
def three0 : MinHeap :=
  { size := 0, capacity := 3, arr := fun _ => ⟨0, 0⟩,
    indexMap := fun i => if 0 ≤ i ∧ i < 3 then NOTHING else 0 }

/-- Example: `three0` after `insert(heap, 7, 0)` and `insert(heap, 3, 1)`. -/
def three2 : MinHeap := heapOf (insertAll [(7, 0), (3, 1)] three0) three0

/-- Example: `tie3` (ids 0, 1, 2 present) after `insert(heap, 9, 0)`, a call with
an id that is already present. -/
def dup4 : MinHeap := heapOf (insert tie3 9 0) tie0

/-- Example: `tie0` after `insert(heap, 3, 0)` and `insert(heap, 3, 1)`: a root
with a left child of equal priority and no right child. -/
def equal2 : MinHeap := heapOf (insertAll [(3, 0), (3, 1)] tie0) tie0

/-- Two different positions of `[1, size]` hold nodes with the id `i`. -/
def Duplicated (h : MinHeap) (i : Int) : Prop :=
  ∃ x y : Int, x ≠ y ∧ (1 ≤ x ∧ x ≤ h.size) ∧ (1 ≤ y ∧ y ≤ h.size) ∧
    (h.arr x).id = i ∧ (h.arr y).id = i


/-! ## Valid positions, `swap`, and the two loops return -/

theorem isValidIndex_iff (h : MinHeap) (i : Int) :
    isValidIndex h i = true ↔ 1 ≤ i ∧ i ≤ h.size := by
  unfold isValidIndex
  split_ifs with hc
  · simp only [Bool.false_eq_true, false_iff]; omega
  · simp only [true_iff]; omega

theorem isValidIndex_false_iff (h : MinHeap) (i : Int) :
    isValidIndex h i = false ↔ ¬ (1 ≤ i ∧ i ≤ h.size) := by
  rw [← isValidIndex_iff]; simp

theorem swap_invalid (h : MinHeap) (p q : Int)
    (hv : ¬ ((1 ≤ p ∧ p ≤ h.size) ∧ (1 ≤ q ∧ q ≤ h.size))) : swap h p q = h := by
  unfold swap
  rw [← isValidIndex_iff, ← isValidIndex_iff] at hv
  have : (!isValidIndex h p || !isValidIndex h q) = true := by
    cases hp : isValidIndex h p <;> cases hq : isValidIndex h q <;> simp_all
  simp [this]

theorem swap_valid (h : MinHeap) (p q : Int)
    (hp : 1 ≤ p ∧ p ≤ h.size) (hq : 1 ≤ q ∧ q ≤ h.size) :
    swap h p q =
      { size := h.size, capacity := h.capacity,
        arr := Function.update (Function.update h.arr p (h.arr q)) q (h.arr p),
        indexMap := Function.update (Function.update h.indexMap (h.arr p).id q) (h.arr q).id p } := by
  have vp := (isValidIndex_iff h p).2 hp
  have vq := (isValidIndex_iff h q).2 hq
  unfold swap
  simp only [vp, vq, Bool.not_true, Bool.or_self, Bool.false_eq_true, if_false]
  simp only [setPriority, setId, setIndexMap, idAt, priorityAt, isValidIndex] 
  have e1 : ¬ (p < 1 ∨ p > h.size) := by omega
  have e2 : ¬ (q < 1 ∨ q > h.size) := by omega
  simp only [e1, e2, if_false, Bool.not_true, Bool.false_eq_true]
  congr 1
  funext x
  by_cases hxq : x = q
  · subst hxq
    by_cases hxp : x = p
    · subst hxp; simp
    · simp [Function.update, hxp]
  · by_cases hxp : x = p
    · subst hxp
      by_cases hpq : q = x
      · exact absurd hpq.symm hxq
      · simp [Function.update, hxq, hpq]
    · simp [Function.update, hxq, hxp]

theorem swap_size (h : MinHeap) (p q : Int) : (swap h p q).size = h.size := by
  by_cases hv : (1 ≤ p ∧ p ≤ h.size) ∧ (1 ≤ q ∧ q ≤ h.size)
  · rw [swap_valid h p q hv.1 hv.2]
  · rw [swap_invalid h p q hv]

theorem swap_capacity (h : MinHeap) (p q : Int) : (swap h p q).capacity = h.capacity := by
  by_cases hv : (1 ≤ p ∧ p ≤ h.size) ∧ (1 ≤ q ∧ q ≤ h.size)
  · rw [swap_valid h p q hv.1 hv.2]
  · rw [swap_invalid h p q hv]

theorem Swaps.preserves {P : MinHeap → Prop} (hP : ∀ h p q, P h → P (swap h p q))
    {h1 h2 : MinHeap} (hs : Swaps h1 h2) : P h1 → P h2 := by
  induction hs with
  | refl h => exact id
  | step h p q h2 _ ih => exact fun hh => ih (hP h p q hh)

theorem tdiv_two (i : Int) (hi : 0 ≤ i) : Int.tdiv i 2 = i / 2 := by
  rw [Int.tdiv_eq_ediv] <;> omega

theorem bubbleUpFuel_returns : ∀ (fuel : Nat) (h : MinHeap) (i : Int), i ≤ fuel →
    ∃ h2, bubbleUpFuel (fuel + 1) h i = Outcome.returned h2 ∧ Swaps h h2 := by
  intro fuel
  induction fuel with
  | zero =>
    intro h i hi
    have hv : isValidIndex h i = false := by
      rw [isValidIndex_false_iff]; push_cast at hi; omega
    refine ⟨h, ?_, Swaps.refl h⟩
    unfold bubbleUpFuel
    simp [hv]
  | succ n ih =>
    intro h i hi
    unfold bubbleUpFuel
    by_cases hv : isValidIndex h i = true
    · simp only [hv, Bool.not_true, Bool.false_eq_true, if_false]
      split_ifs with h1 h2 h3
      · exact ⟨h, rfl, Swaps.refl h⟩
      · exact ⟨h, rfl, Swaps.refl h⟩
      · rw [isValidIndex_iff] at hv
        have hpar : parentIdx h i ≤ i / 2 := by
          unfold parentIdx
          split_ifs
          · unfold NOTHING; omega
          · rw [tdiv_two i (by omega)]
        obtain ⟨h2, e, s⟩ := ih (swap h i (parentIdx h i)) (parentIdx h i)
          (by push_cast at hi ⊢; omega)
        exact ⟨h2, e, Swaps.step h i _ h2 s⟩
      · exact ⟨h, rfl, Swaps.refl h⟩
    · simp only [Bool.not_eq_true] at hv
      simp only [hv, Bool.not_false, if_true]
      exact ⟨h, rfl, Swaps.refl h⟩

theorem bubbleUp_returns (h : MinHeap) (i : Int) :
    ∃ h2, bubbleUp h i = Outcome.returned h2 ∧ Swaps h h2 :=
  bubbleUpFuel_returns i.toNat h i (Int.self_le_toNat i)

theorem leftIdx_cases (h : MinHeap) (c : Int) :
    (leftIdx h c = NOTHING ∧ ¬ (1 ≤ 2 * c ∧ 2 * c ≤ h.size)) ∨
    (leftIdx h c = 2 * c ∧ 1 ≤ 2 * c ∧ 2 * c ≤ h.size) := by
  unfold leftIdx
  cases hv : isValidIndex h (2 * c)
  · left; rw [isValidIndex_false_iff] at hv; exact ⟨by simp, hv⟩
  · right; rw [isValidIndex_iff] at hv; exact ⟨by simp, hv⟩

theorem rightIdx_cases (h : MinHeap) (c : Int) :
    (rightIdx h c = NOTHING ∧ ¬ (1 ≤ 2 * c + 1 ∧ 2 * c + 1 ≤ h.size)) ∨
    (rightIdx h c = 2 * c + 1 ∧ 1 ≤ 2 * c + 1 ∧ 2 * c + 1 ≤ h.size) := by
  unfold rightIdx
  cases hv : isValidIndex h (2 * c + 1)
  · left; rw [isValidIndex_false_iff] at hv; exact ⟨by simp, hv⟩
  · right; rw [isValidIndex_iff] at hv; exact ⟨by simp, hv⟩

theorem bubbleDownLoop_returns : ∀ (fuel : Nat) (h : MinHeap) (c : Int),
    (1 ≤ c ∨ c = NOTHING) → downBudget h c ≤ fuel →
    ∃ h2, bubbleDownLoop fuel h c = Outcome.returned h2 ∧ Swaps h h2 := by
  intro fuel
  induction fuel with
  | zero =>
    intro h c _ hb
    unfold downBudget at hb
    split_ifs at hb <;> omega
  | succ n ih =>
    intro h c hc hb
    have step : ∀ c2, (1 ≤ c2 ∨ c2 = NOTHING) → downBudget h c2 ≤ n →
        ∃ h2, bubbleDownLoop n (swap h c c2) c2 = Outcome.returned h2 ∧ Swaps h h2 := by
      intro c2 hc2 hb2
      have : downBudget (swap h c c2) c2 ≤ n := by
        unfold downBudget at hb2 ⊢; rw [swap_size]; exact hb2
      obtain ⟨h2, e, s⟩ := ih (swap h c c2) c2 hc2 this
      exact ⟨h2, e, Swaps.step h c c2 h2 s⟩
    have bl : leftIdx h c ≠ NOTHING → downBudget h (leftIdx h c) ≤ n := by
      intro hne
      rcases leftIdx_cases h c with ⟨e, _⟩ | ⟨e, h1, h2⟩
      · exact absurd e hne
      · unfold downBudget at hb ⊢
        unfold NOTHING at hc hb ⊢
        rw [e]
        split_ifs at hb ⊢ <;> omega
    have br : rightIdx h c ≠ NOTHING → downBudget h (rightIdx h c) ≤ n := by
      intro hne
      rcases rightIdx_cases h c with ⟨e, _⟩ | ⟨e, h1, h2⟩
      · exact absurd e hne
      · unfold downBudget at hb ⊢
        unfold NOTHING at hc hb ⊢
        rw [e]
        split_ifs at hb ⊢ <;> omega
    have bn : 1 ≤ c → downBudget h NOTHING ≤ n := by
      intro h1
      unfold downBudget at hb ⊢
      unfold NOTHING at hb ⊢
      split_ifs at hb ⊢ <;> omega
    have vl : leftIdx h c ≠ NOTHING → (1 ≤ leftIdx h c ∨ leftIdx h c = NOTHING) := by
      intro hne
      rcases leftIdx_cases h c with ⟨e, _⟩ | ⟨e, h1, h2⟩
      · exact absurd e hne
      · left; omega
    have vr : (1 ≤ rightIdx h c ∨ rightIdx h c = NOTHING) := by
      rcases rightIdx_cases h c with ⟨e, _⟩ | ⟨e, h1, h2⟩
      · right; exact e
      · left; omega
    have lr : leftIdx h c = NOTHING → 1 ≤ c → rightIdx h c = NOTHING := by
      intro e h1
      rcases leftIdx_cases h c with ⟨_, hl⟩ | ⟨e2, h2, _⟩
      · rcases rightIdx_cases h c with ⟨er, _⟩ | ⟨_, _, h3⟩
        · exact er
        · omega
      · rw [e] at e2; unfold NOTHING at e2; omega
    have cn : c = NOTHING → leftIdx h c = NOTHING ∧ rightIdx h c = NOTHING := by
      intro e
      subst e
      constructor
      · rcases leftIdx_cases h NOTHING with ⟨e, _⟩ | ⟨_, h1, _⟩
        · exact e
        · unfold NOTHING at h1; omega
      · rcases rightIdx_cases h NOTHING with ⟨e, _⟩ | ⟨_, h1, _⟩
        · exact e
        · unfold NOTHING at h1; omega
    unfold bubbleDownLoop
    simp only []
    rcases hc with hc | hc
    · split_ifs with a1 a2 a3 a4 a5 a6 a7
      · exact ⟨h, rfl, Swaps.refl h⟩
      · exact ⟨h, rfl, Swaps.refl h⟩
      · exact absurd ⟨a3.1, lr a3.1 hc⟩ a1
      · exact ⟨h, rfl, Swaps.refl h⟩
      · have hl : leftIdx h c ≠ NOTHING := fun e => a1 ⟨e, a5.1⟩
        exact step _ (vl hl) (bl hl)
      · have hl : leftIdx h c ≠ NOTHING := fun e => a1 ⟨e, lr e hc⟩
        exact step _ (vl hl) (bl hl)
      · by_cases hr : rightIdx h c = NOTHING
        · rw [hr]; exact step _ (Or.inr rfl) (bn hc)
        · exact step _ vr (br hr)
      · exact ⟨h, rfl, Swaps.refl h⟩
    · have := cn hc
      simp only [this.1, this.2, and_self, if_true]
      exact ⟨h, rfl, Swaps.refl h⟩

theorem bubbleDown_returns (h : MinHeap) :
    ∃ h2, bubbleDown h = Outcome.returned h2 ∧ Swaps h h2 := by
  unfold bubbleDown
  cases hv : isValidIndex h ROOT_INDEX
  · exact ⟨h, by simp, Swaps.refl h⟩
  · rw [isValidIndex_iff] at hv
    simp only [Bool.not_true, Bool.false_eq_true, if_false]
    apply bubbleDownLoop_returns _ h ROOT_INDEX (Or.inl (le_refl _))
    unfold downBudget ROOT_INDEX NOTHING
    unfold ROOT_INDEX at hv
    simp only [show ¬ ((1 : Int) = -1) by decide, if_false]
    omega

/-! ## What a call of `swap` preserves -/

theorem swap_arr (h : MinHeap) (p q : Int)
    (hp : 1 ≤ p ∧ p ≤ h.size) (hq : 1 ≤ q ∧ q ≤ h.size) (x : Int) :
    (swap h p q).arr x = if x = q then h.arr p else if x = p then h.arr q else h.arr x := by
  rw [swap_valid h p q hp hq]
  simp only [Function.update_apply]

theorem swap_indexMap (h : MinHeap) (p q : Int)
    (hp : 1 ≤ p ∧ p ≤ h.size) (hq : 1 ≤ q ∧ q ≤ h.size) (x : Int) :
    (swap h p q).indexMap x =
      if x = (h.arr q).id then p else if x = (h.arr p).id then q else h.indexMap x := by
  rw [swap_valid h p q hp hq]
  simp only [Function.update_apply]

theorem swap_arr_comp (h : MinHeap) (p q : Int)
    (hp : 1 ≤ p ∧ p ≤ h.size) (hq : 1 ≤ q ∧ q ≤ h.size) :
    (swap h p q).arr = h.arr ∘ (Equiv.swap p q) := by
  funext x
  rw [swap_arr h p q hp hq, Function.comp_apply]
  by_cases hxq : x = q
  · subst hxq; simp
  · by_cases hxp : x = p
    · subst hxp; simp [hxq]
    · simp [hxq, hxp, Equiv.swap_apply_of_ne_of_ne hxp hxq]

theorem Icc_map_swap (n p q : Int) (hp : 1 ≤ p ∧ p ≤ n) (hq : 1 ≤ q ∧ q ≤ n) :
    (Finset.Icc 1 n).val.map (Equiv.swap p q) = (Finset.Icc 1 n).val := by
  have : (Finset.Icc 1 n).map (Equiv.swap p q).toEmbedding = Finset.Icc 1 n := by
    ext x
    rw [Finset.mem_map_equiv, Equiv.symm_swap]
    by_cases hxq : x = q
    · subst hxq; simp [Finset.mem_Icc, hp, hq]
    · by_cases hxp : x = p
      · subst hxp; simp [Finset.mem_Icc, hp, hq]
      · rw [Equiv.swap_apply_of_ne_of_ne hxp hxq]
  have e := congrArg Finset.val this
  rw [Finset.map_val] at e
  exact e

theorem nodes_swap (h : MinHeap) (p q : Int) : nodes (swap h p q) = nodes h := by
  by_cases hv : (1 ≤ p ∧ p ≤ h.size) ∧ (1 ≤ q ∧ q ≤ h.size)
  · unfold nodes
    rw [swap_size, swap_arr_comp h p q hv.1 hv.2, ← Multiset.map_map,
      Icc_map_swap h.size p q hv.1 hv.2]
  · rw [swap_invalid h p q hv]

theorem present_swap (h : MinHeap) (p q i : Int) : Present (swap h p q) i ↔ Present h i := by
  by_cases hv : (1 ≤ p ∧ p ≤ h.size) ∧ (1 ≤ q ∧ q ≤ h.size)
  · unfold Present
    simp only [swap_size, swap_arr h p q hv.1 hv.2]
    constructor
    · rintro ⟨x, h1, h2, h3⟩
      by_cases hxq : x = q
      · rw [if_pos hxq] at h3; exact ⟨p, hv.1.1, hv.1.2, h3⟩
      · rw [if_neg hxq] at h3
        by_cases hxp : x = p
        · rw [if_pos hxp] at h3; exact ⟨q, hv.2.1, hv.2.2, h3⟩
        · rw [if_neg hxp] at h3; exact ⟨x, h1, h2, h3⟩
    · rintro ⟨x, h1, h2, h3⟩
      by_cases hxq : x = q
      · refine ⟨p, hv.1.1, hv.1.2, ?_⟩
        by_cases hpq : p = q
        · rw [if_pos hpq, ← h3, hxq, hpq]
        · rw [if_neg hpq, if_pos rfl, ← h3, hxq]
      · by_cases hxp : x = p
        · refine ⟨q, hv.2.1, hv.2.2, ?_⟩
          rw [if_pos rfl, ← h3, hxp]
        · exact ⟨x, h1, h2, by rw [if_neg hxq, if_neg hxp]; exact h3⟩
  · rw [swap_invalid h p q hv]

theorem indexMap_swap_absent (h : MinHeap) (p q i : Int) (hi : ¬ Present h i) :
    (swap h p q).indexMap i = h.indexMap i := by
  by_cases hv : (1 ≤ p ∧ p ≤ h.size) ∧ (1 ≤ q ∧ q ≤ h.size)
  · rw [swap_indexMap h p q hv.1 hv.2]
    have h1 : i ≠ (h.arr q).id := fun e => hi ⟨q, hv.2.1, hv.2.2, e.symm⟩
    have h2 : i ≠ (h.arr p).id := fun e => hi ⟨p, hv.1.1, hv.1.2, e.symm⟩
    rw [if_neg h1, if_neg h2]
  · rw [swap_invalid h p q hv]

theorem positionsIndexed_swap (h : MinHeap) (p q : Int) (ha : PositionsIndexed h) :
    PositionsIndexed (swap h p q) := by
  by_cases hv : (1 ≤ p ∧ p ≤ h.size) ∧ (1 ≤ q ∧ q ≤ h.size)
  · intro x h1 h2
    rw [swap_size] at h2
    rw [swap_indexMap h p q hv.1 hv.2, swap_arr h p q hv.1 hv.2]
    have ip := ha p hv.1.1 hv.1.2
    have iq := ha q hv.2.1 hv.2.2
    have ix := ha x h1 h2
    by_cases hxq : x = q
    · rw [if_pos hxq]
      by_cases hid : (h.arr p).id = (h.arr q).id
      · rw [if_pos hid]; rw [hid, iq] at ip; rw [hxq]; exact ip.symm
      · rw [if_neg hid, if_pos rfl]; exact hxq.symm
    · rw [if_neg hxq]
      by_cases hxp : x = p
      · rw [if_pos hxp, if_pos rfl]; exact hxp.symm
      · rw [if_neg hxp]
        have n1 : (h.arr x).id ≠ (h.arr q).id := fun e => hxq (by rw [← ix, e, iq])
        have n2 : (h.arr x).id ≠ (h.arr p).id := fun e => hxp (by rw [← ix, e, ip])
        rw [if_neg n1, if_neg n2]; exact ix
  · rw [swap_invalid h p q hv]; exact ha

theorem absentMarked_swap (h : MinHeap) (p q : Int) (hb : AbsentMarked h) :
    AbsentMarked (swap h p q) := by
  intro i h1 h2 h3
  rw [swap_capacity] at h2
  rw [present_swap] at h3
  rw [indexMap_swap_absent h p q i h3]
  exact hb i h1 h2 h3

theorem indexConsistent_swap (h : MinHeap) (p q : Int) (hc : IndexConsistent h) :
    IndexConsistent (swap h p q) :=
  ⟨positionsIndexed_swap h p q hc.1, absentMarked_swap h p q hc.2⟩

theorem Swaps.size_eq {h1 h2 : MinHeap} (hs : Swaps h1 h2) : h2.size = h1.size :=
  Swaps.preserves (P := fun h => h.size = h1.size)
    (fun h p q e => (swap_size h p q).trans e) hs rfl

theorem Swaps.capacity_eq {h1 h2 : MinHeap} (hs : Swaps h1 h2) : h2.capacity = h1.capacity :=
  Swaps.preserves (P := fun h => h.capacity = h1.capacity)
    (fun h p q e => (swap_capacity h p q).trans e) hs rfl

theorem Swaps.nodes_eq {h1 h2 : MinHeap} (hs : Swaps h1 h2) : nodes h2 = nodes h1 :=
  Swaps.preserves (P := fun h => nodes h = nodes h1)
    (fun h p q e => (nodes_swap h p q).trans e) hs rfl

theorem Swaps.indexConsistent {h1 h2 : MinHeap} (hs : Swaps h1 h2)
    (hc : IndexConsistent h1) : IndexConsistent h2 :=
  Swaps.preserves (fun h p q e => indexConsistent_swap h p q e) hs hc

theorem Swaps.positionsIndexed {h1 h2 : MinHeap} (hs : Swaps h1 h2)
    (hc : PositionsIndexed h1) : PositionsIndexed h2 :=
  Swaps.preserves (fun h p q e => positionsIndexed_swap h p q e) hs hc

theorem Swaps.absent {h1 h2 : MinHeap} (hs : Swaps h1 h2) (i : Int)
    (hi : ¬ Present h1 i) : ¬ Present h2 i ∧ h2.indexMap i = h1.indexMap i :=
  Swaps.preserves (P := fun h => ¬ Present h i ∧ h.indexMap i = h1.indexMap i)
    (fun h p q e => ⟨fun hp => e.1 ((present_swap h p q i).1 hp),
      (indexMap_swap_absent h p q i e.1).trans e.2⟩) hs ⟨hi, rfl⟩

/-! ## `bubbleUp` restores the heap property -/

theorem priorityAt_valid (h : MinHeap) (i : Int) (h1 : 1 ≤ i) (h2 : i ≤ h.size) :
    priorityAt h i = (h.arr i).priority := by
  unfold priorityAt
  rw [(isValidIndex_iff h i).2 ⟨h1, h2⟩]
  rfl

theorem idAt_valid (h : MinHeap) (i : Int) (h1 : 1 ≤ i) (h2 : i ≤ h.size) :
    idAt h i = (h.arr i).id := by
  unfold idAt
  rw [(isValidIndex_iff h i).2 ⟨h1, h2⟩]
  rfl

theorem parentIdx_valid (h : MinHeap) (i : Int) (h1 : 2 ≤ i) (h2 : i ≤ h.size) :
    parentIdx h i = i / 2 := by
  unfold parentIdx
  rw [tdiv_two i (by omega), (isValidIndex_iff h (i / 2)).2 ⟨by omega, by omega⟩]
  rfl

theorem root_le_all (h : MinHeap) (hp : HeapProperty h) :
    ∀ p : Int, 1 ≤ p → p ≤ h.size → (h.arr 1).priority ≤ (h.arr p).priority := by
  have key : ∀ n : Nat, ∀ p : Int, p.toNat ≤ n → 1 ≤ p → p ≤ h.size →
      (h.arr 1).priority ≤ (h.arr p).priority := by
    intro n
    induction n with
    | zero => intro p h0 h1 _; omega
    | succ n ih =>
      intro p h0 h1 h2
      by_cases e : p = 1
      · rw [e]
      · have a := ih (p / 2) (by omega) (by omega) (by omega)
        have b := hp p (by omega) h2
        exact le_trans a b
  intro p h1 h2
  exact key p.toNat p (le_refl _) h1 h2

theorem heapExcept_swap (h : MinHeap) (i : Int) (h1 : 2 ≤ i) (h2 : i ≤ h.size)
    (he : HeapExcept h i) (hlt : (h.arr i).priority < (h.arr (i / 2)).priority) :
    HeapExcept (swap h i (i / 2)) (i / 2) := by
  have vi : 1 ≤ i ∧ i ≤ h.size := ⟨by omega, h2⟩
  have vp : 1 ≤ i / 2 ∧ i / 2 ≤ h.size := ⟨by omega, by omega⟩
  have hne : i ≠ i / 2 := by omega
  constructor
  · intro p p1 p2 p3
    rw [swap_size] at p2
    rw [swap_arr h i (i / 2) vi vp, swap_arr h i (i / 2) vi vp]
    rw [if_neg p3]
    by_cases e : p = i
    · rw [if_pos e, e, if_pos rfl]
      exact le_of_lt hlt
    · rw [if_neg e]
      have hp := he.1 p p1 p2 e
      by_cases e2 : p / 2 = i / 2
      · rw [if_pos e2]
        rw [e2] at hp
        exact le_trans (le_of_lt hlt) hp
      · rw [if_neg e2]
        by_cases e3 : p / 2 = i
        · rw [if_pos e3]
          exact he.2 p p1 p2 e3 h1
        · rw [if_neg e3]; exact hp
  · intro c c1 c2 c3 c4
    rw [swap_size] at c2
    rw [swap_arr h i (i / 2) vi vp, swap_arr h i (i / 2) vi vp]
    have n1 : i / 2 / 2 ≠ i / 2 := by omega
    have n2 : i / 2 / 2 ≠ i := by omega
    have n3 : c ≠ i / 2 := by omega
    rw [if_neg n1, if_neg n2, if_neg n3]
    have hpar := he.1 (i / 2) c4 vp.2 (Ne.symm hne)
    by_cases e : c = i
    · rw [if_pos e]; exact hpar
    · rw [if_neg e]
      have hc := he.1 c c1 c2 e
      rw [c3] at hc
      exact le_trans hpar hc

theorem bubbleUpFuel_heapProperty : ∀ (fuel : Nat) (h : MinHeap) (i : Int) (h2 : MinHeap),
    1 ≤ i → i ≤ h.size → HeapExcept h i →
    bubbleUpFuel fuel h i = Outcome.returned h2 → HeapProperty h2 := by
  intro fuel
  induction fuel with
  | zero => intro h i h2 _ _ _ e; simp [bubbleUpFuel] at e
  | succ n ih =>
    intro h i h2 i1 i2 he e
    unfold bubbleUpFuel at e
    rw [(isValidIndex_iff h i).2 ⟨i1, i2⟩] at e
    simp only [Bool.not_true, Bool.false_eq_true, if_false] at e
    by_cases hr : i = ROOT_INDEX
    · rw [if_pos hr] at e
      cases e
      intro p p1 p2
      exact he.1 p p1 p2 (by unfold ROOT_INDEX at hr; omega)
    · rw [if_neg hr] at e
      unfold ROOT_INDEX at hr
      have i3 : 2 ≤ i := by omega
      simp only [parentIdx_valid h i i3 i2] at e
      have hn : ¬ (i / 2 = NOTHING) := by unfold NOTHING; omega
      rw [if_neg hn, priorityAt_valid h i i1 i2,
        priorityAt_valid h (i / 2) (by omega) (by omega)] at e
      by_cases hlt : (h.arr i).priority < (h.arr (i / 2)).priority
      · rw [if_pos hlt] at e
        exact ih (swap h i (i / 2)) (i / 2) h2 (by omega) (by rw [swap_size]; omega)
          (heapExcept_swap h i i3 i2 he hlt) e
      · rw [if_neg hlt] at e
        cases e
        intro p p1 p2
        by_cases ep : p = i
        · rw [ep]; exact not_lt.1 hlt
        · exact he.1 p p1 p2 ep

/-! ## The states `insert` and `extractMin` hand to the loops -/

theorem insert_eq (h : MinHeap) (priority id : Int) :
    insert h priority id = bubbleUp (appended h priority id) (h.size + 1) := rfl

theorem extractMin_eq (h : MinHeap) (hs : h.size ≠ 0) :
    extractMin h =
      match bubbleDown (removed h) with
      | Outcome.returned h4 => Outcome.returned (h.arr ROOT_INDEX, h4)
      | Outcome.exited c g => Outcome.exited c g
      | Outcome.unfinished => Outcome.unfinished := by
  unfold extractMin
  rw [if_neg hs]
  simp only [removed, setIndexMap, nodeAt, swap_size, swap_capacity]

theorem Icc_val_succ (n : Int) (hn : 0 ≤ n) :
    (Finset.Icc 1 (n + 1)).val = (n + 1) ::ₘ (Finset.Icc 1 n).val := by
  have hnot : n + 1 ∉ Finset.Icc 1 n := by simp
  have : Finset.Icc 1 (n + 1) = Finset.cons (n + 1) (Finset.Icc 1 n) hnot := by
    ext x
    simp only [Finset.mem_Icc, Finset.mem_cons]
    omega
  rw [this, Finset.cons_val]

theorem nodes_split (h : MinHeap) (hs : 0 < h.size) :
    nodes h = h.arr h.size ::ₘ (Finset.Icc 1 (h.size - 1)).val.map h.arr := by
  unfold nodes
  have := Icc_val_succ (h.size - 1) (by omega)
  rw [sub_add_cancel] at this
  rw [this, Multiset.map_cons]

theorem nodes_appended (h : MinHeap) (priority id : Int) (hs : 0 ≤ h.size) :
    nodes (appended h priority id) = { priority := priority, id := id } ::ₘ nodes h := by
  rw [nodes_split (appended h priority id) (by show 0 < h.size + 1; omega)]
  show Function.update h.arr (h.size + 1) _ (h.size + 1) ::ₘ
    Multiset.map (Function.update h.arr (h.size + 1) _) (Finset.Icc 1 (h.size + 1 - 1)).val = _
  rw [Function.update_same, add_sub_cancel_right]
  congr 1
  apply Multiset.map_congr rfl
  intro x hx
  rw [Finset.mem_val, Finset.mem_Icc] at hx
  rw [Function.update_noteq (by omega)]

theorem positionsIndexed_appended (h : MinHeap) (priority id : Int)
    (ha : PositionsIndexed h) (hn : ¬ Present h id) :
    PositionsIndexed (appended h priority id) := by
  intro p p1 p2
  show Function.update h.indexMap id (h.size + 1)
    (Function.update h.arr (h.size + 1) _ p).id = p
  have p2 : p ≤ h.size + 1 := p2
  by_cases e : p = h.size + 1
  · rw [e, Function.update_same, Function.update_same]
  · rw [Function.update_noteq e]
    have : (h.arr p).id ≠ id := fun e2 => hn ⟨p, p1, by omega, e2⟩
    rw [Function.update_noteq this]
    exact ha p p1 (by omega)

theorem present_appended (h : MinHeap) (priority id i : Int) (hs : 0 ≤ h.size) :
    Present (appended h priority id) i ↔ Present h i ∨ i = id := by
  constructor
  · rintro ⟨p, p1, p2, p3⟩
    have p2 : p ≤ h.size + 1 := p2
    have p3 : (Function.update h.arr (h.size + 1) _ p).id = i := p3
    by_cases e : p = h.size + 1
    · rw [e, Function.update_same] at p3; exact Or.inr p3.symm
    · rw [Function.update_noteq e] at p3; exact Or.inl ⟨p, p1, by omega, p3⟩
  · rintro (⟨p, p1, p2, p3⟩ | e)
    · refine ⟨p, p1, by show p ≤ h.size + 1; omega, ?_⟩
      show (Function.update h.arr (h.size + 1) _ p).id = i
      rw [Function.update_noteq (by omega)]; exact p3
    · refine ⟨h.size + 1, by omega, le_refl _, ?_⟩
      show (Function.update h.arr (h.size + 1) _ (h.size + 1)).id = i
      rw [Function.update_same, e]

theorem absentMarked_appended (h : MinHeap) (priority id : Int)
    (hb : AbsentMarked h) (hs : 0 ≤ h.size) : AbsentMarked (appended h priority id) := by
  intro i i1 i2 i3
  rw [present_appended h priority id i hs] at i3
  push_neg at i3
  show Function.update h.indexMap id (h.size + 1) i = NOTHING
  rw [Function.update_noteq i3.2]
  exact hb i i1 i2 i3.1

theorem heapExcept_appended (h : MinHeap) (priority id : Int) (hp : HeapProperty h) :
    HeapExcept (appended h priority id) (h.size + 1) := by
  constructor
  · intro p p1 p2 p3
    have p2 : p ≤ h.size + 1 := p2
    show (Function.update h.arr (h.size + 1) _ (p / 2)).priority ≤
      (Function.update h.arr (h.size + 1) _ p).priority
    rw [Function.update_noteq p3, Function.update_noteq (by omega)]
    exact hp p p1 (by omega)
  · intro c c1 c2 c3 _
    have c2 : c ≤ h.size + 1 := c2
    omega

theorem removed_arr_last (h : MinHeap) (hs : 0 < h.size) :
    (removed h).arr h.size = h.arr ROOT_INDEX := by
  show (swap h ROOT_INDEX h.size).arr h.size = _
  rw [swap_arr h ROOT_INDEX h.size ⟨le_refl _, by unfold ROOT_INDEX; omega⟩ ⟨by omega, le_refl _⟩,
    if_pos rfl]

theorem nodes_removed (h : MinHeap) (hs : 0 < h.size) :
    nodes h = h.arr ROOT_INDEX ::ₘ nodes (removed h) := by
  rw [← nodes_swap h ROOT_INDEX h.size, nodes_split _ (by rw [swap_size]; exact hs), swap_size]
  have := removed_arr_last h hs
  rw [← this]
  rfl

theorem positionsIndexed_removed (h : MinHeap) (hs : 0 < h.size) (ha : PositionsIndexed h) :
    PositionsIndexed (removed h) ∧ ¬ Present (removed h) (h.arr ROOT_INDEX).id ∧
      (removed h).indexMap (h.arr ROOT_INDEX).id = NOTHING := by
  have ha1 := positionsIndexed_swap h ROOT_INDEX h.size ha
  have hl : (swap h ROOT_INDEX h.size).arr h.size = h.arr ROOT_INDEX := removed_arr_last h hs
  have key : ∀ p : Int, 1 ≤ p → p ≤ h.size - 1 →
      ((swap h ROOT_INDEX h.size).arr p).id ≠ (h.arr ROOT_INDEX).id := by
    intro p p1 p2 e
    have a := ha1 p p1 (by rw [swap_size]; omega)
    have b := ha1 h.size (by omega) (by rw [swap_size])
    rw [hl] at b
    rw [e, b] at a
    omega
  refine ⟨?_, ?_, ?_⟩
  · intro p p1 p2
    have p2 : p ≤ h.size - 1 := p2
    show Function.update (swap h ROOT_INDEX h.size).indexMap (h.arr ROOT_INDEX).id NOTHING
      ((swap h ROOT_INDEX h.size).arr p).id = p
    rw [Function.update_noteq (key p p1 p2)]
    exact ha1 p p1 (by rw [swap_size]; omega)
  · rintro ⟨p, p1, p2, p3⟩
    exact key p p1 p2 p3
  · show Function.update (swap h ROOT_INDEX h.size).indexMap (h.arr ROOT_INDEX).id NOTHING
      (h.arr ROOT_INDEX).id = NOTHING
    rw [Function.update_same]

theorem absentMarked_removed (h : MinHeap) (hs : 0 < h.size) (hc : IndexConsistent h) :
    AbsentMarked (removed h) := by
  have hb1 := absentMarked_swap h ROOT_INDEX h.size hc.2
  have hl : (swap h ROOT_INDEX h.size).arr h.size = h.arr ROOT_INDEX := removed_arr_last h hs
  intro i i1 i2 i3
  show Function.update (swap h ROOT_INDEX h.size).indexMap (h.arr ROOT_INDEX).id NOTHING i = NOTHING
  by_cases e : i = (h.arr ROOT_INDEX).id
  · rw [e, Function.update_same]
  · rw [Function.update_noteq e]
    apply hb1 i i1 i2
    rintro ⟨p, p1, p2, p3⟩
    rw [swap_size] at p2
    by_cases e2 : p = h.size
    · rw [e2, hl] at p3; exact e p3.symm
    · exact i3 ⟨p, p1, by show p ≤ h.size - 1; omega, p3⟩

/-! ## Every operation returns and keeps index consistency -/

theorem insert_returns (h : MinHeap) (priority id : Int) :
    ∃ h2, insert h priority id = Outcome.returned h2 ∧ Swaps (appended h priority id) h2 := by
  rw [insert_eq]
  exact bubbleUp_returns _ _

theorem extractMin_returns (h : MinHeap) (hs : 0 < h.size) :
    ∃ h2, extractMin h = Outcome.returned (h.arr ROOT_INDEX, h2) ∧ Swaps (removed h) h2 := by
  obtain ⟨h2, e, s⟩ := bubbleDown_returns (removed h)
  refine ⟨h2, ?_, s⟩
  rw [extractMin_eq h (by omega), e]

theorem newHeap_inv (capacity : Int) (arr0 : Int → HeapNode) (map0 : Int → Int) (h : MinHeap)
    (e : newHeap capacity arr0 map0 = some h) :
    h.size = 0 ∧ h.capacity = capacity ∧ IndexConsistent h := by
  unfold newHeap at e
  split_ifs at e with hc
  cases e
  refine ⟨rfl, rfl, ?_, ?_⟩
  · intro p p1 p2
    have p2 : p ≤ 0 := p2
    omega
  · intro i i1 i2 _
    have i2 : i < capacity := i2
    show (if 0 ≤ i ∧ i < capacity then NOTHING else map0 i) = NOTHING
    rw [if_pos ⟨i1, i2⟩]

theorem insert_inv (h : MinHeap) (priority id : Int) (h2 : MinHeap)
    (hs : 0 ≤ h.size) (hc : IndexConsistent h) (hn : ¬ Present h id)
    (e : insert h priority id = Outcome.returned h2) :
    0 ≤ h2.size ∧ IndexConsistent h2 := by
  obtain ⟨h3, e3, s⟩ := insert_returns h priority id
  rw [e3] at e
  cases e
  constructor
  · rw [s.size_eq]; show 0 ≤ h.size + 1; omega
  · exact s.indexConsistent ⟨positionsIndexed_appended h priority id hc.1 hn,
      absentMarked_appended h priority id hc.2 hs⟩

theorem extractMin_inv (h : MinHeap) (n : HeapNode) (h2 : MinHeap)
    (hs : 0 < h.size) (hc : IndexConsistent h)
    (e : extractMin h = Outcome.returned (n, h2)) :
    0 ≤ h2.size ∧ IndexConsistent h2 := by
  obtain ⟨h3, e3, s⟩ := extractMin_returns h hs
  rw [e3] at e
  cases e
  constructor
  · rw [s.size_eq]; show 0 ≤ h.size - 1; omega
  · exact s.indexConsistent ⟨(positionsIndexed_removed h hs hc.1).1, absentMarked_removed h hs hc⟩

theorem present_setPriority (h : MinHeap) (x v i : Int) :
    Present (setPriority h x v) i ↔ Present h i := by
  have key : ∀ p : Int, ((setPriority h x v).arr p).id = (h.arr p).id := by
    intro p
    show (Function.update h.arr x _ p).id = _
    by_cases e : p = x
    · rw [e, Function.update_same]
    · rw [Function.update_noteq e]
  unfold Present
  simp only [key]
  rfl

theorem indexConsistent_setPriority (h : MinHeap) (x v : Int) (hc : IndexConsistent h) :
    IndexConsistent (setPriority h x v) := by
  have key : ∀ p : Int, ((setPriority h x v).arr p).id = (h.arr p).id := by
    intro p
    show (Function.update h.arr x _ p).id = _
    by_cases e : p = x
    · rw [e, Function.update_same]
    · rw [Function.update_noteq e]
  constructor
  · intro p p1 p2
    show h.indexMap ((setPriority h x v).arr p).id = p
    rw [key]
    exact hc.1 p p1 p2
  · intro i i1 i2 i3
    rw [present_setPriority] at i3
    exact hc.2 i i1 i2 i3

theorem decreasePriority_cases (h : MinHeap) (id newPriority : Int) :
    (decreasePriority h id newPriority = Outcome.returned (false, h) ∧
      ¬ ((1 ≤ h.indexMap id ∧ h.indexMap id ≤ h.size) ∧
          newPriority < (h.arr (h.indexMap id)).priority)) ∨
    (∃ h2, decreasePriority h id newPriority = Outcome.returned (true, h2) ∧
      (1 ≤ h.indexMap id ∧ h.indexMap id ≤ h.size) ∧
      newPriority < (h.arr (h.indexMap id)).priority ∧
      bubbleUp (setPriority h (h.indexMap id) newPriority) (h.indexMap id)
        = Outcome.returned h2 ∧
      Swaps (setPriority h (h.indexMap id) newPriority) h2) := by
  unfold decreasePriority
  simp only []
  cases hv : isValidIndex h (h.indexMap id)
  · left
    rw [isValidIndex_false_iff] at hv
    exact ⟨by simp, fun hh => hv hh.1⟩
  · rw [isValidIndex_iff] at hv
    simp only [Bool.not_true, Bool.false_eq_true, if_false]
    by_cases hlt : (h.arr (h.indexMap id)).priority > newPriority
    · right
      rw [if_pos hlt]
      obtain ⟨h2, e, s⟩ := bubbleUp_returns (setPriority h (h.indexMap id) newPriority)
        (h.indexMap id)
      exact ⟨h2, by rw [e], hv, hlt, e, s⟩
    · left
      rw [if_neg hlt]
      exact ⟨rfl, fun hh => hlt hh.2⟩

theorem decreasePriority_inv (h : MinHeap) (id newPriority : Int) (b : Bool) (h2 : MinHeap)
    (hs : 0 ≤ h.size) (hc : IndexConsistent h)
    (e : decreasePriority h id newPriority = Outcome.returned (b, h2)) :
    0 ≤ h2.size ∧ IndexConsistent h2 := by
  rcases decreasePriority_cases h id newPriority with ⟨e2, _⟩ | ⟨h3, e3, _, _, _, s⟩
  · rw [e2] at e
    cases e
    exact ⟨hs, hc⟩
  · rw [e3] at e
    cases e
    constructor
    · rw [s.size_eq]; exact hs
    · exact s.indexConsistent (indexConsistent_setPriority h _ _ hc)

theorem reachable_inv (h : MinHeap) (hr : Reachable h) : 0 ≤ h.size ∧ IndexConsistent h := by
  induction hr with
  | init capacity arr0 map0 h e =>
    obtain ⟨a, _, c⟩ := newHeap_inv capacity arr0 map0 h e
    exact ⟨by rw [a], c⟩
  | insert h priority id h2 _ pre e ih => exact insert_inv h priority id h2 ih.1 ih.2 pre.1 e
  | extractMin h n h2 _ hs e ih => exact extractMin_inv h n h2 hs ih.2 e
  | decreasePriority h id np b h2 _ _ _ e ih => exact decreasePriority_inv h id np b h2 ih.1 ih.2 e

/-! ## Lookup through the index map; sequences of calls -/

theorem stored_swap (h : MinHeap) (p q j : Int) (n : HeapNode) (ha : PositionsIndexed h)
    (hj : n.id = j) (hst : Stored h j n) : Stored (swap h p q) j n := by
  by_cases hv : (1 ≤ p ∧ p ≤ h.size) ∧ (1 ≤ q ∧ q ≤ h.size)
  · obtain ⟨⟨r1, r2⟩, r3⟩ := hst
    have ip := ha p hv.1.1 hv.1.2
    have iq := ha q hv.2.1 hv.2.2
    have idr : (h.arr (h.indexMap j)).id = j := by rw [r3]; exact hj
    unfold Stored
    rw [swap_size, swap_indexMap h p q hv.1 hv.2 j]
    by_cases e1 : j = (h.arr q).id
    · rw [if_pos e1]
      refine ⟨hv.1, ?_⟩
      have rq : h.indexMap j = q := by rw [e1]; exact iq
      rw [swap_arr h p q hv.1 hv.2]
      by_cases hpq : p = q
      · rw [if_pos hpq, ← r3, rq, hpq]
      · rw [if_neg hpq, if_pos rfl, ← r3, rq]
    · rw [if_neg e1]
      by_cases e2 : j = (h.arr p).id
      · rw [if_pos e2]
        refine ⟨hv.2, ?_⟩
        have rp : h.indexMap j = p := by rw [e2]; exact ip
        rw [swap_arr h p q hv.1 hv.2, if_pos rfl, ← r3, rp]
      · rw [if_neg e2]
        refine ⟨⟨r1, r2⟩, ?_⟩
        have n1 : h.indexMap j ≠ q := fun e => e1 (by rw [← e]; exact idr.symm)
        have n2 : h.indexMap j ≠ p := fun e => e2 (by rw [← e]; exact idr.symm)
        rw [swap_arr h p q hv.1 hv.2, if_neg n1, if_neg n2]
        exact r3
  · rw [swap_invalid h p q hv]; exact hst

theorem Swaps.stored {h1 h2 : MinHeap} (hs : Swaps h1 h2) (j : Int) (n : HeapNode)
    (ha : PositionsIndexed h1) (hj : n.id = j) (hst : Stored h1 j n) :
    PositionsIndexed h2 ∧ Stored h2 j n :=
  Swaps.preserves (P := fun h => PositionsIndexed h ∧ Stored h j n)
    (fun h p q e => ⟨positionsIndexed_swap h p q e.1, stored_swap h p q j n e.1 hj e.2⟩)
    hs ⟨ha, hst⟩

theorem Swaps.present {h1 h2 : MinHeap} (hs : Swaps h1 h2) (i : Int) :
    Present h2 i ↔ Present h1 i :=
  Swaps.preserves (P := fun h => Present h i ↔ Present h1 i)
    (fun h p q e => (present_swap h p q i).trans e) hs Iff.rfl

theorem stored_of_present (h : MinHeap) (j : Int) (ha : PositionsIndexed h)
    (hp : Present h j) : Stored h j (h.arr (h.indexMap j)) ∧ (h.arr (h.indexMap j)).id = j := by
  obtain ⟨p, p1, p2, p3⟩ := hp
  have := ha p p1 p2
  rw [p3] at this
  unfold Stored
  rw [this]
  exact ⟨⟨⟨p1, p2⟩, rfl⟩, p3⟩

theorem nodes_of_size_zero (h : MinHeap) (hs : h.size = 0) : nodes h = 0 := by
  unfold nodes
  rw [hs]
  rfl

theorem insertAll_nodes : ∀ (l : List (Int × Int)) (h : MinHeap), 0 ≤ h.size →
    ∃ h2, insertAll l h = Outcome.returned h2 ∧ h2.size = h.size + l.length ∧
      nodes h2 = (l.map nodeOfPair : Multiset HeapNode) + nodes h := by
  intro l
  induction l with
  | nil =>
    intro h _
    exact ⟨h, rfl, by simp, by simp⟩
  | cons x rest ih =>
    intro h hs
    obtain ⟨p, i⟩ := x
    obtain ⟨h1, e1, s1⟩ := insert_returns h p i
    have sz : h1.size = h.size + 1 := s1.size_eq
    obtain ⟨h2, e2, z2, n2⟩ := ih h1 (by omega)
    refine ⟨h2, ?_, ?_, ?_⟩
    · show (match insert h p i with
        | Outcome.returned h2 => insertAll rest h2
        | Outcome.exited c g => Outcome.exited c g
        | Outcome.unfinished => Outcome.unfinished) = _
      rw [e1]
      exact e2
    · rw [z2, sz, List.length_cons]; push_cast; omega
    · rw [n2, s1.nodes_eq, nodes_appended h p i hs, List.map_cons, ← Multiset.cons_coe]
      simp only [nodeOfPair, Multiset.cons_add, Multiset.add_cons]

theorem extractN_nodes : ∀ (n : Nat) (h : MinHeap), h.size = n →
    ∃ xs h2, extractN n h = Outcome.returned (xs, h2) ∧
      (xs : Multiset HeapNode) = nodes h ∧ h2.size = 0 := by
  intro n
  induction n with
  | zero =>
    intro h hs
    refine ⟨[], h, rfl, ?_, by simpa using hs⟩
    rw [nodes_of_size_zero h (by simpa using hs)]
    rfl
  | succ n ih =>
    intro h hs
    push_cast at hs
    obtain ⟨h1, e1, s1⟩ := extractMin_returns h (by omega)
    have sz : h1.size = h.size - 1 := s1.size_eq
    obtain ⟨xs, h2, e2, m2, z2⟩ := ih h1 (by omega)
    refine ⟨h.arr ROOT_INDEX :: xs, h2, ?_, ?_, z2⟩
    · show (match extractMin h with
        | Outcome.returned (x, h2) =>
          match extractN n h2 with
          | Outcome.returned (xs, h3) => Outcome.returned (x :: xs, h3)
          | Outcome.exited c g => Outcome.exited c g
          | Outcome.unfinished => Outcome.unfinished
        | Outcome.exited c g => Outcome.exited c g
        | Outcome.unfinished => Outcome.unfinished) = _
      rw [e1]
      simp only [e2]
    · rw [nodes_removed h (by omega), ← s1.nodes_eq, ← m2]
      rfl

/-! ## Facts about the example heaps -/

theorem tie0_new : newHeap 5 (fun _ => ⟨0, 0⟩) (fun _ => 0) = some tie0 := rfl

theorem tie0_pre : InsertPre tie0 0 := by
  refine ⟨?_, by decide, by decide, by decide⟩
  rintro ⟨p, h1, h2, _⟩
  have : tie0.size = 0 := rfl
  omega

theorem tie1_pre : InsertPre tie1 1 := by
  refine ⟨?_, by decide, by decide, by decide⟩
  rintro ⟨p, h1, h2, h3⟩
  have : tie1.size = 1 := rfl
  rw [this] at h2
  interval_cases p
  revert h3
  decide

theorem tie2_pre : InsertPre tie2 2 := by
  refine ⟨?_, by decide, by decide, by decide⟩
  rintro ⟨p, h1, h2, h3⟩
  have : tie2.size = 2 := rfl
  rw [this] at h2
  interval_cases p <;> revert h3 <;> decide

theorem tie3_pre : InsertPre tie3 3 := by
  refine ⟨?_, by decide, by decide, by decide⟩
  rintro ⟨p, h1, h2, h3⟩
  have : tie3.size = 3 := rfl
  rw [this] at h2
  interval_cases p <;> revert h3 <;> decide

theorem tie3_reachable : Reachable tie3 :=
  Reachable.insert tie2 3 2 tie3
    (Reachable.insert tie1 3 1 tie2
      (Reachable.insert tie0 1 0 tie1 (Reachable.init 5 _ _ tie0 tie0_new) tie0_pre rfl)
      tie1_pre rfl)
    tie2_pre rfl

theorem tie4_reachable : Reachable tie4 :=
  Reachable.insert tie3 5 3 tie4 tie3_reachable tie3_pre rfl

theorem tie5_reachable : Reachable tie5 :=
  Reachable.extractMin tie4 (valueOf (extractMin tie4) ⟨0, 0⟩) tie5 tie4_reachable
    (by decide) rfl

theorem tie3_heapProperty : HeapProperty tie3 := by
  intro p h1 h2
  have : tie3.size = 3 := rfl
  rw [this] at h2
  interval_cases p <;> decide

theorem tie4_heapProperty : HeapProperty tie4 := by
  intro p h1 h2
  have : tie4.size = 4 := rfl
  rw [this] at h2
  interval_cases p <;> decide

theorem tie4_present (i : Int) (h0 : 0 ≤ i) (h3 : i ≤ 3) : Present tie4 i := by
  interval_cases i
  · exact ⟨1, by decide, by decide, by decide⟩
  · exact ⟨2, by decide, by decide, by decide⟩
  · exact ⟨3, by decide, by decide, by decide⟩
  · exact ⟨4, by decide, by decide, by decide⟩

/-! ## Results -/

/-- C1 (fails on the code): the heap property is not an invariant of the
reachable states.  From `newHeap(5)`, the calls `insert(1,0)`, `insert(3,1)`,
`insert(3,2)`, `insert(5,3)` meet their preconditions and build a heap with the
heap property; `extractMin()` then returns `{id 0, priority 1}` and leaves
priorities `5, 3, 3` in positions `1, 2, 3`: `bubbleDown` stops at a root whose
two children have equal, smaller priorities. -/
theorem heapProperty_broken_by_extractMin :
    newHeap 5 (fun _ => ⟨0, 0⟩) (fun _ => 0) = some tie0 ∧
    insertAll tieList tie0 = Outcome.returned tie4 ∧
    HeapProperty tie4 ∧
    extractMin tie4 = Outcome.returned ({ priority := 1, id := 0 }, tie5) ∧
    Reachable tie5 ∧
    tie5.size = 3 ∧
    (tie5.arr 1).priority = 5 ∧ (tie5.arr 2).priority = 3 ∧ (tie5.arr 3).priority = 3 ∧
    ¬ HeapProperty tie5 := by
  refine ⟨rfl, rfl, tie4_heapProperty, rfl, tie5_reachable, rfl, rfl, rfl, rfl, ?_⟩
  intro H
  have := H 2 (by decide) (by decide)
  revert this
  decide

/-- C2 (fails on the code): the pairs `(1,0), (3,1), (3,2), (5,3)` have distinct
ids in `[0, 5)`; inserting them into `newHeap(5)` and calling `extractMin` four
times returns priorities `1, 5, 3, 3`, which is not a non-decreasing sequence. -/
theorem extract_order_not_sorted :
    (tieList.map Prod.snd).Nodup ∧ (∀ x ∈ tieList, 0 ≤ x.2 ∧ x.2 < 5) ∧
    (tieList.length : Int) ≤ 5 ∧
    newHeap 5 (fun _ => ⟨0, 0⟩) (fun _ => 0) = some tie0 ∧
    insertAll tieList tie0 = Outcome.returned tie4 ∧
    ∃ xs h2, extractN tieList.length tie4 = Outcome.returned (xs, h2) ∧
      xs = [⟨1, 0⟩, ⟨5, 3⟩, ⟨3, 2⟩, ⟨3, 1⟩] ∧
      ¬ (xs.map HeapNode.priority).Pairwise (fun a b => a ≤ b) := by
  refine ⟨by decide, by decide, by decide, rfl, rfl,
    [⟨1, 0⟩, ⟨5, 3⟩, ⟨3, 2⟩, ⟨3, 1⟩], heapOf2 (extractN 4 tie4) tie0, rfl, rfl, ?_⟩
  decide

/-- C3: index consistency holds in every reachable state: (a) the index map
sends the id stored at each position of `[1, size]` to that position, and (b)
every id of `[0, capacity)` that no node of positions `1..size` carries has
`NOTHING` in the index map. -/
theorem reachable_indexConsistent (h : MinHeap) (hr : Reachable h) :
    (∀ p : Int, 1 ≤ p → p ≤ h.size → h.indexMap (h.arr p).id = p) ∧
    (∀ i : Int, 0 ≤ i → i < h.capacity →
      (∀ p : Int, 1 ≤ p → p ≤ h.size → (h.arr p).id ≠ i) → h.indexMap i = NOTHING) := by
  obtain ⟨_, ha, hb⟩ := reachable_inv h hr
  refine ⟨ha, fun i i1 i2 i3 => hb i i1 i2 ?_⟩
  rintro ⟨p, p1, p2, p3⟩
  exact i3 p p1 p2 p3

/-- Witness of C3 at the state reached by four inserts and one `extractMin`. -/
theorem reachable_indexConsistent_witness :
    Reachable tie5 ∧
    (∀ p : Int, 1 ≤ p → p ≤ tie5.size → tie5.indexMap (tie5.arr p).id = p) ∧
    (∀ i : Int, 0 ≤ i → i < tie5.capacity →
      (∀ p : Int, 1 ≤ p → p ≤ tie5.size → (tie5.arr p).id ≠ i) →
      tie5.indexMap i = NOTHING) :=
  ⟨tie5_reachable, reachable_indexConsistent tie5 tie5_reachable⟩

/-- C4: on a heap with `size > 0` that satisfies the heap property, `extractMin`
returns, its result is the node stored at position 1 before the call, and that
node's priority is at most the priority of every node in positions `1..size`. -/
theorem extractMin_returns_minimum (h : MinHeap) (hs : 0 < h.size) (hp : HeapProperty h) :
    ∃ h2, extractMin h = Outcome.returned (nodeAt h ROOT_INDEX, h2) ∧
      ∀ p : Int, 1 ≤ p → p ≤ h.size →
        (nodeAt h ROOT_INDEX).priority ≤ (nodeAt h p).priority := by
  obtain ⟨h2, e, _⟩ := extractMin_returns h hs
  exact ⟨h2, e, root_le_all h hp⟩

/-- Witness of C4 on the heap with priorities `1, 3, 3, 5`. -/
theorem extractMin_returns_minimum_witness :
    0 < tie4.size ∧ HeapProperty tie4 ∧
    ∃ h2, extractMin tie4 = Outcome.returned (nodeAt tie4 ROOT_INDEX, h2) ∧
      ∀ p : Int, 1 ≤ p → p ≤ tie4.size →
        (nodeAt tie4 ROOT_INDEX).priority ≤ (nodeAt tie4 p).priority :=
  ⟨by decide, tie4_heapProperty,
    extractMin_returns_minimum tie4 (by decide) tie4_heapProperty⟩

/-- C5: on an index-consistent heap (with `size` a count, `0 ≤ size`) and a
`(priority, id)` that meets the preconditions of `insert`, the call returns, the
size grows by one, `indexOf(id)` is a valid position holding exactly
`{id, priority}`, and the nodes of positions `1..size` are the old ones plus that
node, with multiplicity. -/
theorem insert_postcondition (h : MinHeap) (priority id : Int) (hs : 0 ≤ h.size)
    (hc : IndexConsistent h) (pre : InsertPre h id) :
    ∃ h2, insert h priority id = Outcome.returned h2 ∧
      h2.size = h.size + 1 ∧
      isValidIndex h2 (indexOf h2 id) = true ∧
      nodeAt h2 (indexOf h2 id) = { priority := priority, id := id } ∧
      nodes h2 = { priority := priority, id := id } ::ₘ nodes h := by
  obtain ⟨h2, e, s⟩ := insert_returns h priority id
  have hn : nodes h2 = { priority := priority, id := id } ::ₘ nodes h := by
    rw [s.nodes_eq, nodes_appended h priority id hs]
  have ha : PositionsIndexed h2 :=
    s.positionsIndexed (positionsIndexed_appended h priority id hc.1 pre.1)
  have hm : ({ priority := priority, id := id } : HeapNode) ∈ nodes h2 := by
    rw [hn]; exact Multiset.mem_cons_self _ _
  unfold nodes at hm
  rw [Multiset.mem_map] at hm
  obtain ⟨x, hx, ex⟩ := hm
  rw [Finset.mem_val, Finset.mem_Icc] at hx
  have := ha x hx.1 hx.2
  rw [ex] at this
  have this : h2.indexMap id = x := this
  refine ⟨h2, e, s.size_eq, ?_, ?_, hn⟩
  · unfold indexOf
    rw [this, isValidIndex_iff]
    exact hx
  · unfold indexOf nodeAt
    rw [this, ex]

/-- Witness of C5: `insert(5, 3)` on the heap holding priorities `1, 3, 3`. -/
theorem insert_postcondition_witness :
    0 ≤ tie3.size ∧ IndexConsistent tie3 ∧ InsertPre tie3 3 ∧
    ∃ h2, insert tie3 5 3 = Outcome.returned h2 ∧
      h2.size = tie3.size + 1 ∧
      isValidIndex h2 (indexOf h2 3) = true ∧
      nodeAt h2 (indexOf h2 3) = { priority := 5, id := 3 } ∧
      nodes h2 = { priority := 5, id := 3 } ::ₘ nodes tie3 :=
  ⟨by decide, (reachable_inv tie3 tie3_reachable).2, tie3_pre,
    insert_postcondition tie3 5 3 (by decide) (reachable_inv tie3 tie3_reachable).2 tie3_pre⟩

/-- C6: on a heap that satisfies the heap property and index consistency, with a
`(priority, id)` that meets the preconditions of `insert`, the call returns a
heap in which every position of `[2, size]` has a priority not below its
parent's. -/
theorem insert_preserves_heapProperty (h : MinHeap) (priority id : Int)
    (hp : HeapProperty h) (_hc : IndexConsistent h) (_pre : InsertPre h id) :
    ∃ h2, insert h priority id = Outcome.returned h2 ∧
      ∀ p : Int, 2 ≤ p → p ≤ h2.size →
        (h2.arr p).priority ≥ (h2.arr (p / 2)).priority := by
  obtain ⟨h2, e, _⟩ := insert_returns h priority id
  refine ⟨h2, e, ?_⟩
  have e2 := e
  rw [insert_eq] at e2
  by_cases hv : 1 ≤ h.size + 1
  · exact bubbleUpFuel_heapProperty _ (appended h priority id) (h.size + 1) h2 hv (le_refl _)
      (heapExcept_appended h priority id hp) e2
  · have : isValidIndex (appended h priority id) (h.size + 1) = false := by
      rw [isValidIndex_false_iff]; exact fun hh => hv hh.1
    unfold bubbleUp bubbleUpFuel at e2
    simp only [this, Bool.not_false, if_true] at e2
    cases e2
    intro p p1 p2
    have p2 : p ≤ h.size + 1 := p2
    omega

/-- Witness of C6: `insert(5, 3)` on the heap holding priorities `1, 3, 3`. -/
theorem insert_preserves_heapProperty_witness :
    HeapProperty tie3 ∧ IndexConsistent tie3 ∧ InsertPre tie3 3 ∧
    ∃ h2, insert tie3 5 3 = Outcome.returned h2 ∧
      ∀ p : Int, 2 ≤ p → p ≤ h2.size →
        (h2.arr p).priority ≥ (h2.arr (p / 2)).priority :=
  ⟨tie3_heapProperty, (reachable_inv tie3 tie3_reachable).2, tie3_pre,
    insert_preserves_heapProperty tie3 5 3 tie3_heapProperty
      (reachable_inv tie3 tie3_reachable).2 tie3_pre⟩

/-- C7: on a heap that satisfies the heap property and index consistency, for a
present id and a new priority strictly below that id's current priority,
`decreasePriority` returns true; afterwards the node found at `indexOf(id)` is
`{id, newPriority}`, every other present id is found with the node it had, the
size is unchanged and the heap property holds; and if the new priority is
strictly below the priority of every other present id, the next `extractMin`
returns `{id, newPriority}`. -/
theorem decreasePriority_success (h : MinHeap) (id newPriority : Int)
    (hp : HeapProperty h) (hc : IndexConsistent h) (hpres : Present h id)
    (hlt : newPriority < (nodeAt h (indexOf h id)).priority) :
    ∃ h2, decreasePriority h id newPriority = Outcome.returned (true, h2) ∧
      h2.size = h.size ∧
      isValidIndex h2 (indexOf h2 id) = true ∧
      nodeAt h2 (indexOf h2 id) = { priority := newPriority, id := id } ∧
      (∀ j : Int, j ≠ id → Present h j →
        isValidIndex h2 (indexOf h2 j) = true ∧
        nodeAt h2 (indexOf h2 j) = nodeAt h (indexOf h j)) ∧
      (∀ p : Int, 2 ≤ p → p ≤ h2.size →
        (h2.arr p).priority ≥ (h2.arr (p / 2)).priority) ∧
      ((∀ j : Int, j ≠ id → Present h j →
          newPriority < (nodeAt h (indexOf h j)).priority) →
        ∃ h3, extractMin h2 =
          Outcome.returned ({ priority := newPriority, id := id }, h3)) := by
  unfold nodeAt indexOf at *
  obtain ⟨⟨⟨x1, x2⟩, _⟩, xid⟩ := stored_of_present h id hc.1 hpres
  rcases decreasePriority_cases h id newPriority with ⟨_, hno⟩ | ⟨h2, e, _, _, eb, s⟩
  · exact absurd ⟨⟨x1, x2⟩, hlt⟩ hno
  · -- the state handed to `bubbleUp`
    have harr : ∀ p : Int, (setPriority h (h.indexMap id) newPriority).arr p =
        if p = h.indexMap id then { priority := newPriority, id := id } else h.arr p := by
      intro p
      show Function.update h.arr (h.indexMap id) _ p = _
      by_cases ep : p = h.indexMap id
      · rw [ep, Function.update_same, if_pos rfl]
        show ({ priority := newPriority, id := (h.arr (h.indexMap id)).id } : HeapNode) = _
        rw [xid]
      · rw [Function.update_noteq ep, if_neg ep]
    have ha1 : PositionsIndexed (setPriority h (h.indexMap id) newPriority) :=
      (indexConsistent_setPriority h _ _ hc).1
    have st_id : Stored (setPriority h (h.indexMap id) newPriority) id
        { priority := newPriority, id := id } :=
      ⟨⟨x1, x2⟩, by
        show (setPriority h (h.indexMap id) newPriority).arr (h.indexMap id) = _
        rw [harr, if_pos rfl]⟩
    have st_other : ∀ j : Int, j ≠ id → Present h j →
        Stored (setPriority h (h.indexMap id) newPriority) j (h.arr (h.indexMap j)) := by
      intro j hj hpj
      obtain ⟨⟨hv, _⟩, jid⟩ := stored_of_present h j hc.1 hpj
      refine ⟨hv, ?_⟩
      have : h.indexMap j ≠ h.indexMap id := by
        intro e2
        rw [e2, xid] at jid
        exact hj jid.symm
      show (setPriority h (h.indexMap id) newPriority).arr (h.indexMap j) = _
      rw [harr, if_neg this]
    have hex : HeapExcept (setPriority h (h.indexMap id) newPriority) (h.indexMap id) := by
      constructor
      · intro p p1 p2 p3
        rw [harr, harr, if_neg p3]
        by_cases e2 : p / 2 = h.indexMap id
        · rw [if_pos e2]
          have := hp p p1 p2
          rw [e2] at this
          exact le_trans (le_of_lt hlt) this
        · rw [if_neg e2]; exact hp p p1 p2
      · intro c c1 c2 c3 c4
        have n1 : h.indexMap id / 2 ≠ h.indexMap id := by omega
        have n2 : c ≠ h.indexMap id := by omega
        rw [harr, harr, if_neg n1, if_neg n2]
        have a := hp (h.indexMap id) c4 x2
        have b := hp c c1 c2
        rw [c3] at b
        exact le_trans a b
    have hp2 : HeapProperty h2 :=
      bubbleUpFuel_heapProperty _ (setPriority h (h.indexMap id) newPriority) _ h2 x1 x2 hex eb
    have sid := s.stored id _ ha1 rfl st_id
    have ha2 : PositionsIndexed h2 := sid.1
    have sz : h2.size = h.size := s.size_eq
    refine ⟨h2, e, sz, (isValidIndex_iff _ _).2 sid.2.1, sid.2.2, ?_, hp2, ?_⟩
    · intro j hj hpj
      obtain ⟨_, jid⟩ := stored_of_present h j hc.1 hpj
      have sj := (s.stored j _ ha1 jid (st_other j hj hpj)).2
      exact ⟨(isValidIndex_iff _ _).2 sj.1, sj.2⟩
    · intro hmin
      have hs2 : 0 < h2.size := by omega
      obtain ⟨h3, e3, _⟩ := extractMin_returns h2 hs2
      refine ⟨h3, ?_⟩
      rw [e3]
      have hroot := ha2 ROOT_INDEX (le_refl _) (by unfold ROOT_INDEX; omega)
      by_cases ej : (h2.arr ROOT_INDEX).id = id
      · rw [ej] at hroot
        have := sid.2.2
        rw [hroot] at this
        rw [this]
      · exfalso
        have pj2 : Present h2 (h2.arr ROOT_INDEX).id :=
          ⟨ROOT_INDEX, le_refl _, by unfold ROOT_INDEX; omega, rfl⟩
        have pj : Present h (h2.arr ROOT_INDEX).id :=
          (present_setPriority h _ _ _).1 ((s.present _).1 pj2)
        obtain ⟨_, jid⟩ := stored_of_present h _ hc.1 pj
        have sj := (s.stored _ _ ha1 jid (st_other _ ej pj)).2
        have sj2 : h2.arr (h2.indexMap (h2.arr ROOT_INDEX).id) =
            h.arr (h.indexMap (h2.arr ROOT_INDEX).id) := sj.2
        rw [hroot] at sj2
        have big := hmin _ ej pj
        have small := root_le_all h2 hp2 (h2.indexMap id) sid.2.1.1 sid.2.1.2
        rw [sid.2.2] at small
        have small : (h2.arr ROOT_INDEX).priority ≤ newPriority := small
        rw [sj2] at small
        omega

/-- Witness of C7: on the heap with priorities `1, 3, 3, 5` (ids `0..3`), the
priority of id 3 is lowered from 5 to 0. -/
theorem decreasePriority_success_witness :
    HeapProperty tie4 ∧ IndexConsistent tie4 ∧ Present tie4 3 ∧
    (0 : Int) < (nodeAt tie4 (indexOf tie4 3)).priority ∧
    ∃ h2, decreasePriority tie4 3 0 = Outcome.returned (true, h2) ∧
      h2.size = tie4.size ∧
      isValidIndex h2 (indexOf h2 3) = true ∧
      nodeAt h2 (indexOf h2 3) = { priority := 0, id := 3 } ∧
      (∀ j : Int, j ≠ 3 → Present tie4 j →
        isValidIndex h2 (indexOf h2 j) = true ∧
        nodeAt h2 (indexOf h2 j) = nodeAt tie4 (indexOf tie4 j)) ∧
      (∀ p : Int, 2 ≤ p → p ≤ h2.size →
        (h2.arr p).priority ≥ (h2.arr (p / 2)).priority) ∧
      ((∀ j : Int, j ≠ 3 → Present tie4 j →
          0 < (nodeAt tie4 (indexOf tie4 j)).priority) →
        ∃ h3, extractMin h2 = Outcome.returned ({ priority := 0, id := 3 }, h3)) :=
  ⟨tie4_heapProperty, (reachable_inv tie4 tie4_reachable).2,
    tie4_present 3 (by decide) (by decide), by decide,
    decreasePriority_success tie4 3 0 tie4_heapProperty
      (reachable_inv tie4 tie4_reachable).2 (tie4_present 3 (by decide) (by decide))
      (by decide)⟩

/-- C8: for an id of `[0, capacity)` whose index-map entry is not a valid
position, or whose entry is valid with `newPriority` not below the priority
stored there, `decreasePriority` returns false and the heap it leaves is the heap
it was given: size, capacity, node array and index map. -/
theorem decreasePriority_noop (h : MinHeap) (id newPriority : Int)
    (_h0 : 0 ≤ id) (_h1 : id < h.capacity)
    (hcase : isValidIndex h (indexOf h id) = false ∨
      (isValidIndex h (indexOf h id) = true ∧
        newPriority ≥ priorityAt h (indexOf h id))) :
    decreasePriority h id newPriority = Outcome.returned (false, h) := by
  rcases decreasePriority_cases h id newPriority with ⟨e, _⟩ | ⟨h2, _, hv, hlt, _, _⟩
  · exact e
  · exfalso
    unfold indexOf at hcase
    rcases hcase with hf | ⟨_, hge⟩
    · rw [isValidIndex_false_iff] at hf; exact hf hv
    · rw [priorityAt_valid h _ hv.1 hv.2] at hge; omega

/-- Witness of C8: id 0 is present with priority 1 and is asked to go to 10. -/
theorem decreasePriority_noop_witness :
    (0 : Int) ≤ 0 ∧ (0 : Int) < tie4.capacity ∧
    (isValidIndex tie4 (indexOf tie4 0) = false ∨
      (isValidIndex tie4 (indexOf tie4 0) = true ∧
        (10 : Int) ≥ priorityAt tie4 (indexOf tie4 0))) ∧
    decreasePriority tie4 0 10 = Outcome.returned (false, tie4) :=
  ⟨by decide, by decide, Or.inr ⟨by decide, by decide⟩,
    decreasePriority_noop tie4 0 10 (by decide) (by decide)
      (Or.inr ⟨by decide, by decide⟩)⟩

/-- C9: for `(priority, id)` pairs with pairwise distinct ids in `[0, capacity)`,
at most `capacity` of them, inserting them all into `newHeap(capacity)` and
calling `extractMin` as many times returns; the returned nodes are a permutation
of the inserted pairs, and the size is 0 afterwards. -/
theorem extract_returns_inserted (capacity : Int) (arr0 : Int → HeapNode)
    (map0 : Int → Int) (h0 : MinHeap) (l : List (Int × Int))
    (hnew : newHeap capacity arr0 map0 = some h0)
    (_hd : (l.map Prod.snd).Nodup) (_hr : ∀ x ∈ l, 0 ≤ x.2 ∧ x.2 < capacity)
    (_hl : (l.length : Int) ≤ capacity) :
    ∃ h xs h2, insertAll l h0 = Outcome.returned h ∧
      extractN l.length h = Outcome.returned (xs, h2) ∧
      xs.Perm (l.map nodeOfPair) ∧ h2.size = 0 := by
  obtain ⟨z0, _, _⟩ := newHeap_inv capacity arr0 map0 h0 hnew
  obtain ⟨h, e1, s1, n1⟩ := insertAll_nodes l h0 (by omega)
  obtain ⟨xs, h2, e2, m2, z2⟩ := extractN_nodes l.length h (by omega)
  refine ⟨h, xs, h2, e1, e2, ?_, z2⟩
  rw [n1, nodes_of_size_zero h0 z0, add_zero] at m2
  exact Multiset.coe_eq_coe.1 m2

/-- Witness of C9: the pairs `(1,0), (3,1), (3,2), (5,3)` and `newHeap(5)`. -/
theorem extract_returns_inserted_witness :
    newHeap 5 (fun _ => ⟨0, 0⟩) (fun _ => 0) = some tie0 ∧
    (tieList.map Prod.snd).Nodup ∧ (∀ x ∈ tieList, 0 ≤ x.2 ∧ x.2 < 5) ∧
    (tieList.length : Int) ≤ 5 ∧
    ∃ h xs h2, insertAll tieList tie0 = Outcome.returned h ∧
      extractN tieList.length h = Outcome.returned (xs, h2) ∧
      xs.Perm (tieList.map nodeOfPair) ∧ h2.size = 0 :=
  ⟨tie0_new, by decide, by decide, by decide,
    extract_returns_inserted 5 (fun _ => ⟨0, 0⟩) (fun _ => 0) tie0 tieList tie0_new
      (by decide) (by decide) (by decide)⟩

/-- C10: on a non-empty index-consistent heap, `extractMin` returns a node with
some id `i`; afterwards `indexOf(i)` is `NOTHING`, no position of `1..size`
carries `i`, the size is one less, and `decreasePriority` on `i` returns false
for every new priority and leaves the heap as it was. -/
theorem absent_after_extractMin (h : MinHeap) (hs : 0 < h.size) (hc : IndexConsistent h) :
    ∃ n h2, extractMin h = Outcome.returned (n, h2) ∧
      indexOf h2 n.id = NOTHING ∧ ¬ Present h2 n.id ∧ h2.size = h.size - 1 ∧
      ∀ q : Int, decreasePriority h2 n.id q = Outcome.returned (false, h2) := by
  obtain ⟨h2, e, s⟩ := extractMin_returns h hs
  obtain ⟨_, hnp, hmap⟩ := positionsIndexed_removed h hs hc.1
  obtain ⟨hnp2, hmap2⟩ := s.absent _ hnp
  rw [hmap] at hmap2
  refine ⟨h.arr ROOT_INDEX, h2, e, hmap2, hnp2, s.size_eq, ?_⟩
  intro q
  rcases decreasePriority_cases h2 (h.arr ROOT_INDEX).id q with ⟨e2, _⟩ | ⟨_, _, hv, _, _, _⟩
  · exact e2
  · rw [hmap2] at hv
    unfold NOTHING at hv
    omega

/-- Witness of C10 on the heap with priorities `1, 3, 3, 5`. -/
theorem absent_after_extractMin_witness :
    0 < tie4.size ∧ IndexConsistent tie4 ∧
    ∃ n h2, extractMin tie4 = Outcome.returned (n, h2) ∧
      indexOf h2 n.id = NOTHING ∧ ¬ Present h2 n.id ∧ h2.size = tie4.size - 1 ∧
      ∀ q : Int, decreasePriority h2 n.id q = Outcome.returned (false, h2) :=
  ⟨by decide, (reachable_inv tie4 tie4_reachable).2,
    absent_after_extractMin tie4 (by decide) (reachable_inv tie4 tie4_reachable).2⟩


/-! ## Results, second part -/

/-- C11 (amended): on a heap with `size == 0`, `extractMin` does not return: its
guard calls `exit(1)`, the process ends with status 1 and no value is returned;
no write precedes the exit, the heap is the one the call was given. -/
theorem extractMin_empty_exits (h : MinHeap) (hs : h.size = 0) :
    extractMin h = Outcome.exited 1 h ∧ ¬ ∃ r, extractMin h = Outcome.returned r := by
  have e : extractMin h = Outcome.exited 1 h := by
    unfold extractMin
    rw [if_pos hs]
  refine ⟨e, ?_⟩
  rintro ⟨r, hr⟩
  rw [e] at hr
  cases hr

/-- Witness of C11 (amended): `create(capacity=1); extractMin()`. -/
theorem extractMin_empty_exits_witness :
    one0.size = 0 ∧
    extractMin one0 = Outcome.exited 1 one0 ∧
    ¬ ∃ r, extractMin one0 = Outcome.returned r :=
  ⟨rfl, extractMin_empty_exits one0 rfl⟩

/-- C11 (as stated, fails): after `create(capacity=1)`, `extractMin()` on the
empty heap does not return an error result: the call ends the process with
`exit(1)` and returns nothing. -/
theorem extractMin_empty_no_error_result :
    newHeap 1 (fun _ => ⟨0, 0⟩) (fun _ => 0) = some one0 ∧ one0.size = 0 ∧
    extractMin one0 = Outcome.exited 1 one0 ∧
    ¬ ∃ r : HeapNode × MinHeap, extractMin one0 = Outcome.returned r := by
  refine ⟨rfl, rfl, rfl, ?_⟩
  rintro ⟨r, hr⟩
  have e : extractMin one0 = Outcome.exited 1 one0 := rfl
  rw [e] at hr
  cases hr

/-- C12: `newHeap(capacity)` gives `NULL` exactly when `capacity < 0`; for
`capacity >= 0` it gives a heap with `size == 0`, the `capacity` field equal to
the argument and `indexMap[i] == NOTHING` for every `i` in `[0, capacity)`, so
that no such id is present and `decreasePriority` on it returns false and leaves
the heap as it is. -/
theorem newHeap_contract (capacity : Int) (arr0 : Int → HeapNode) (map0 : Int → Int) :
    (newHeap capacity arr0 map0 = none ↔ capacity < 0) ∧
    (0 ≤ capacity → ∃ h, newHeap capacity arr0 map0 = some h ∧
      h.size = 0 ∧ h.capacity = capacity ∧
      ∀ i : Int, 0 ≤ i → i < capacity →
        indexOf h i = NOTHING ∧ ¬ Present h i ∧
        ∀ q : Int, decreasePriority h i q = Outcome.returned (false, h)) := by
  constructor
  · unfold newHeap
    split_ifs with hc
    · exact ⟨fun _ => hc, fun _ => rfl⟩
    · exact ⟨fun e => (by cases e), fun hh => absurd hh hc⟩
  · intro hc
    have hn : ¬ capacity < 0 := by omega
    have e : newHeap capacity arr0 map0 = some
        { size := 0, capacity := capacity, arr := arr0,
          indexMap := fun i => if 0 ≤ i ∧ i < capacity then NOTHING else map0 i } := by
      unfold newHeap
      rw [if_neg hn]
    refine ⟨_, e, rfl, rfl, ?_⟩
    intro i i0 i1
    have hm : (if 0 ≤ i ∧ i < capacity then NOTHING else map0 i) = NOTHING :=
      if_pos ⟨i0, i1⟩
    refine ⟨hm, ?_, ?_⟩
    · rintro ⟨p, p1, p2, _⟩
      have p2 : p ≤ 0 := p2
      omega
    · intro q
      rcases decreasePriority_cases _ i q with ⟨e2, _⟩ | ⟨_, _, hv, _, _, _⟩
      · exact e2
      · have hv1 : 1 ≤ (if 0 ≤ i ∧ i < capacity then NOTHING else map0 i) := hv.1
        rw [hm] at hv1
        unfold NOTHING at hv1
        omega

/-- Witness of C12 at `newHeap(3)`. -/
theorem newHeap_contract_witness :
    (newHeap 3 (fun _ => ⟨0, 0⟩) (fun _ => 0) = none ↔ (3 : Int) < 0) ∧
    ((0 : Int) ≤ 3 → ∃ h, newHeap 3 (fun _ => ⟨0, 0⟩) (fun _ => 0) = some h ∧
      h.size = 0 ∧ h.capacity = 3 ∧
      ∀ i : Int, 0 ≤ i → i < 3 →
        indexOf h i = NOTHING ∧ ¬ Present h i ∧
        ∀ q : Int, decreasePriority h i q = Outcome.returned (false, h)) :=
  newHeap_contract 3 (fun _ => ⟨0, 0⟩) (fun _ => 0)

theorem insertAll_capacity : ∀ (l : List (Int × Int)) (h h2 : MinHeap),
    insertAll l h = Outcome.returned h2 → h2.capacity = h.capacity := by
  intro l
  induction l with
  | nil =>
    intro h h2 e
    cases e
    rfl
  | cons x rest ih =>
    intro h h2 e
    obtain ⟨p, i⟩ := x
    obtain ⟨h1, e1, s1⟩ := insert_returns h p i
    have e : (match insert h p i with
        | Outcome.returned h2 => insertAll rest h2
        | Outcome.exited c g => Outcome.exited c g
        | Outcome.unfinished => Outcome.unfinished) = Outcome.returned h2 := e
    rw [e1] at e
    rw [ih h1 h2 e, s1.capacity_eq]
    rfl

theorem last_insert_outside (c : Int) (arr0 : Int → HeapNode) (map0 : Int → Int)
    (h0 : MinHeap) (l : List (Int × Int)) (hnew : newHeap c arr0 map0 = some h0)
    (hl : (l.length : Int) + 1 = c) :
    ∃ h, insertAll l h0 = Outcome.returned h ∧ h.size < h.capacity ∧
      insertArrWrite h = h.capacity ∧ ¬ inNodeArray h (insertArrWrite h) := by
  obtain ⟨z0, c0, _⟩ := newHeap_inv c arr0 map0 h0 hnew
  obtain ⟨h, e, sz, _⟩ := insertAll_nodes l h0 (by omega)
  have hcap := insertAll_capacity l h0 h e
  refine ⟨h, e, by omega, ?_, ?_⟩
  · unfold insertArrWrite; omega
  · unfold inNodeArray insertArrWrite; omega

/-- C13 (fails on the code): filling a heap to its capacity writes outside the
node array.  `newHeap(1)` allocates one node, subscript 0; `insert(heap, 5, 0)`
meets the preconditions of `insert` and stores its node at `heap->arr[1]`.  In
`create(capacity=3); insert(7,0); insert(3,1); insert(9,2)` the third insert
writes `heap->arr[3]`.  The same holds for every capacity `c >= 1`: after `c - 1` inserts into `newHeap(c)`
the size is below the capacity, and the next `insert` writes `heap->arr[c]`,
while the subscripts of the allocation are `0 .. c - 1`.  The index-map write
`heap->indexMap[id]` is inside its allocation. -/
theorem fill_to_capacity_writes_outside :
    (newHeap 1 (fun _ => ⟨0, 0⟩) (fun _ => 0) = some one0 ∧ InsertPre one0 0 ∧
      insertArrWrite one0 = 1 ∧ ¬ inNodeArray one0 (insertArrWrite one0) ∧
      inIndexMap one0 (insertMapWrite 0) ∧
      ∃ h1, insert one0 5 0 = Outcome.returned h1 ∧ h1.size = 1 ∧ h1.capacity = 1 ∧
        indexOf h1 0 = 1 ∧ nodeAt h1 1 = { priority := 5, id := 0 } ∧
        ¬ inNodeArray h1 (indexOf h1 0)) ∧
    (newHeap 3 (fun _ => ⟨0, 0⟩) (fun _ => 0) = some three0 ∧
      insertAll [(7, 0), (3, 1)] three0 = Outcome.returned three2 ∧
      InsertPre three2 2 ∧ insertArrWrite three2 = 3 ∧
      ¬ inNodeArray three2 (insertArrWrite three2)) ∧
    (∀ (c : Int) (arr0 : Int → HeapNode) (map0 : Int → Int) (h0 : MinHeap)
        (l : List (Int × Int)),
      newHeap c arr0 map0 = some h0 → (l.length : Int) + 1 = c →
      ∃ h, insertAll l h0 = Outcome.returned h ∧ h.size < h.capacity ∧
        insertArrWrite h = h.capacity ∧ ¬ inNodeArray h (insertArrWrite h)) := by
  refine ⟨⟨rfl, ⟨?_, by decide, by decide, by decide⟩, rfl, by decide, by decide,
    heapOf (insert one0 5 0) one0, rfl, rfl, rfl, rfl, rfl, by decide⟩,
    ⟨rfl, rfl, ⟨?_, by decide, by decide, by decide⟩, rfl, by decide⟩, ?_⟩
  · rintro ⟨p, p1, p2, _⟩
    have : one0.size = 0 := rfl
    omega
  · rintro ⟨p, p1, p2, p3⟩
    have : three2.size = 2 := rfl
    rw [this] at p2
    interval_cases p <;> revert p3 <;> decide
  · intro c arr0 map0 h0 l hnew hl
    exact last_insert_outside c arr0 map0 h0 l hnew hl

theorem duplicated_swap (h : MinHeap) (p q i : Int) (hd : Duplicated h i) :
    Duplicated (swap h p q) i := by
  by_cases hv : (1 ≤ p ∧ p ≤ h.size) ∧ (1 ≤ q ∧ q ≤ h.size)
  · obtain ⟨x, y, hxy, vx, vy, ex, ey⟩ := hd
    have valid : ∀ z : Int, (1 ≤ z ∧ z ≤ h.size) →
        (1 ≤ Equiv.swap p q z ∧ Equiv.swap p q z ≤ h.size) := by
      intro z vz
      by_cases hzp : z = p
      · rw [hzp, Equiv.swap_apply_left]; exact hv.2
      · by_cases hzq : z = q
        · rw [hzq, Equiv.swap_apply_right]; exact hv.1
        · rw [Equiv.swap_apply_of_ne_of_ne hzp hzq]; exact vz
    have back : ∀ z : Int, (swap h p q).arr (Equiv.swap p q z) = h.arr z := by
      intro z
      rw [swap_arr_comp h p q hv.1 hv.2, Function.comp_apply, Equiv.swap_apply_self]
    refine ⟨Equiv.swap p q x, Equiv.swap p q y, ?_, ?_, ?_, ?_, ?_⟩
    · exact fun e => hxy ((Equiv.swap p q).injective e)
    · rw [swap_size]; exact valid x vx
    · rw [swap_size]; exact valid y vy
    · rw [back]; exact ex
    · rw [back]; exact ey
  · rw [swap_invalid h p q hv]; exact hd

theorem Swaps.duplicated {h1 h2 : MinHeap} (hs : Swaps h1 h2) (i : Int)
    (hd : Duplicated h1 i) : Duplicated h2 i :=
  Swaps.preserves (fun h p q e => duplicated_swap h p q i e) hs hd

theorem not_positionsIndexed_of_duplicated (h : MinHeap) (i : Int) (hd : Duplicated h i) :
    ¬ PositionsIndexed h := by
  intro ha
  obtain ⟨x, y, hxy, vx, vy, ex, ey⟩ := hd
  have a := ha x vx.1 vx.2
  have b := ha y vy.1 vy.2
  rw [ex] at a
  rw [ey] at b
  exact hxy (a.symm.trans b)

/-- C14 (amended): `insert` makes no check of its preconditions.  Called with an
id that is already present (`0 <= id < capacity`, `size < capacity`) it is not
rejected: it returns with the size incremented by one and the node
`{id, priority}` added to the stored nodes, none of the others lost or changed;
two stored nodes then carry the id, and index consistency does not hold. -/
theorem insert_present_id_not_rejected (h : MinHeap) (priority id : Int)
    (hpres : Present h id) (_h0 : 0 ≤ id) (_h1 : id < h.capacity)
    (_h2 : h.size < h.capacity) :
    ∃ h2, insert h priority id = Outcome.returned h2 ∧ h2.size = h.size + 1 ∧
      nodes h2 = { priority := priority, id := id } ::ₘ nodes h ∧
      Duplicated h2 id ∧ ¬ IndexConsistent h2 := by
  obtain ⟨h2, e, s⟩ := insert_returns h priority id
  obtain ⟨x, x1, x2, x3⟩ := hpres
  have hd : Duplicated (appended h priority id) id := by
    refine ⟨x, h.size + 1, by omega, ⟨x1, ?_⟩, ⟨by omega, ?_⟩, ?_, ?_⟩
    · show x ≤ h.size + 1; omega
    · show h.size + 1 ≤ h.size + 1; omega
    · show (Function.update h.arr (h.size + 1) _ x).id = id
      rw [Function.update_noteq (by omega)]; exact x3
    · show (Function.update h.arr (h.size + 1) _ (h.size + 1)).id = id
      rw [Function.update_same]
  have hd2 := s.duplicated id hd
  refine ⟨h2, e, s.size_eq, ?_, hd2, fun hc => not_positionsIndexed_of_duplicated h2 id hd2 hc.1⟩
  rw [s.nodes_eq, nodes_appended h priority id (by omega)]

theorem tie3_present_zero : Present tie3 0 :=
  ⟨1, by decide, by decide, by decide⟩

/-- Witness of C14 (amended): `insert(heap, 9, 0)` on the heap that holds ids
0, 1, 2. -/
theorem insert_present_id_not_rejected_witness :
    Present tie3 0 ∧ (0 : Int) ≤ 0 ∧ (0 : Int) < tie3.capacity ∧
    tie3.size < tie3.capacity ∧
    ∃ h2, insert tie3 9 0 = Outcome.returned h2 ∧ h2.size = tie3.size + 1 ∧
      nodes h2 = { priority := 9, id := 0 } ::ₘ nodes tie3 ∧
      Duplicated h2 0 ∧ ¬ IndexConsistent h2 :=
  ⟨tie3_present_zero, by decide, by decide, by decide,
    insert_present_id_not_rejected tie3 9 0 tie3_present_zero (by decide) (by decide)
      (by decide)⟩

/-- C14 (as stated, fails): the heap `tie3` is index consistent and holds ids
0, 1, 2 with size 3 and capacity 5; `insert(heap, 9, 0)` is not rejected: the
size becomes 4, slot 4 holds `{id 0, priority 9}`, `indexMap[0]` changes from 1
to 4, and index consistency no longer holds. -/
theorem insert_present_id_mutates :
    IndexConsistent tie3 ∧ Present tie3 0 ∧ (0 : Int) < tie3.capacity ∧
    tie3.size < tie3.capacity ∧
    insert tie3 9 0 = Outcome.returned dup4 ∧
    tie3.size = 3 ∧ dup4.size = 4 ∧
    nodeAt dup4 4 = { priority := 9, id := 0 } ∧
    indexOf tie3 0 = 1 ∧ indexOf dup4 0 = 4 ∧
    ¬ IndexConsistent dup4 := by
  refine ⟨(reachable_inv tie3 tie3_reachable).2, tie3_present_zero, by decide, by decide,
    rfl, rfl, rfl, rfl, rfl, rfl, ?_⟩
  intro hc
  have := hc.1 1 (by decide) (by decide)
  revert this
  decide

theorem arr_swap_outside (h : MinHeap) (p q x : Int) (hx : h.size < x) :
    (swap h p q).arr x = h.arr x := by
  by_cases hv : (1 ≤ p ∧ p ≤ h.size) ∧ (1 ≤ q ∧ q ≤ h.size)
  · rw [swap_arr h p q hv.1 hv.2, if_neg (by omega), if_neg (by omega)]
  · rw [swap_invalid h p q hv]

theorem Swaps.arr_outside {h1 h2 : MinHeap} (hs : Swaps h1 h2) (x : Int)
    (hx : h1.size < x) : h2.arr x = h1.arr x :=
  (Swaps.preserves (P := fun h => h.size = h1.size ∧ h.arr x = h1.arr x)
    (fun h p q e => ⟨(swap_size h p q).trans e.1,
      (arr_swap_outside h p q x (by rw [e.1]; exact hx)).trans e.2⟩) hs ⟨rfl, rfl⟩).2

theorem stale_slot_after_extractMin (h : MinHeap) (hs : 0 < h.size) :
    ∃ n h2, extractMin h = Outcome.returned (n, h2) ∧
      ¬ (1 ≤ h.size ∧ h.size ≤ h2.size) ∧ nodeAt h2 h.size = n := by
  obtain ⟨h2, e, s⟩ := extractMin_returns h hs
  refine ⟨h.arr ROOT_INDEX, h2, e, ?_, ?_⟩
  · rw [s.size_eq]
    show ¬ (1 ≤ h.size ∧ h.size ≤ h.size - 1)
    omega
  · unfold nodeAt
    rw [s.arr_outside h.size (by show h.size - 1 < h.size; omega)]
    exact removed_arr_last h hs

/-- C15 (amended): for every position outside `[1, size]`, `priorityAt` and `idAt`
yield `NOTHING`; `nodeAt` makes no validity check and yields what the slot holds:
on the slot that `extractMin` has just vacated (the old `size`), the node that
was removed; and in every reachable heap `indexOf` is `NOTHING` for every id of
`[0, capacity)` that is not present. -/
theorem accessors_outside_valid_positions :
    (∀ (h : MinHeap) (p : Int), ¬ (1 ≤ p ∧ p ≤ h.size) →
      priorityAt h p = NOTHING ∧ idAt h p = NOTHING ∧ nodeAt h p = h.arr p) ∧
    (∀ h : MinHeap, 0 < h.size →
      ∃ n h2, extractMin h = Outcome.returned (n, h2) ∧
        ¬ (1 ≤ h.size ∧ h.size ≤ h2.size) ∧ nodeAt h2 h.size = n) ∧
    (∀ h : MinHeap, Reachable h → ∀ id : Int, 0 ≤ id → id < h.capacity →
      ¬ Present h id → indexOf h id = NOTHING) := by
  refine ⟨?_, stale_slot_after_extractMin, ?_⟩
  · intro h p hp
    have hv := (isValidIndex_false_iff h p).2 hp
    refine ⟨?_, ?_, rfl⟩
    · unfold priorityAt; rw [hv]; rfl
    · unfold idAt; rw [hv]; rfl
  · intro h hr id i0 i1 hn
    exact (reachable_inv h hr).2.2 id i0 i1 hn

/-- Witness of C15 (amended) on the heap with priorities `1, 3, 3, 5` and the
state after its `extractMin`. -/
theorem accessors_outside_valid_positions_witness :
    (priorityAt tie5 4 = NOTHING ∧ idAt tie5 4 = NOTHING ∧ nodeAt tie5 4 = tie5.arr 4) ∧
    (∃ n h2, extractMin tie4 = Outcome.returned (n, h2) ∧
        ¬ (1 ≤ tie4.size ∧ tie4.size ≤ h2.size) ∧ nodeAt h2 tie4.size = n) ∧
    indexOf tie5 4 = NOTHING :=
  ⟨accessors_outside_valid_positions.1 tie5 4 (by decide),
    accessors_outside_valid_positions.2.1 tie4 (by decide),
    accessors_outside_valid_positions.2.2 tie5 tie5_reachable 4 (by decide) (by decide)
      (by
        rintro ⟨p, p1, p2, p3⟩
        have : tie5.size = 3 := rfl
        rw [this] at p2
        interval_cases p <;> revert p3 <;> decide)⟩

/-- C15 (as stated, fails): after `extractMin` on the heap with priorities
`1, 3, 3, 5` the size is 3, position 4 is outside `[1, size]`, and `nodeAt` on it
yields the removed node `{id 0, priority 1}`, not a sentinel. -/
theorem nodeAt_stale_slot_yields_node :
    extractMin tie4 = Outcome.returned ({ priority := 1, id := 0 }, tie5) ∧
    tie5.size = 3 ∧ isValidIndex tie5 4 = false ∧
    nodeAt tie5 4 = { priority := 1, id := 0 } ∧
    (nodeAt tie5 4).id ≠ NOTHING ∧ (nodeAt tie5 4).priority ≠ NOTHING := by
  refine ⟨rfl, rfl, rfl, rfl, by decide, by decide⟩

/-- C16 (fails on the code): in the state `extractMin` hands to `bubbleDown` for
the heap with priorities `1, 3, 3, 5`, the root holds priority 5 and both
children are present with priority 3.  The iteration at the root returns without
a swap, `bubbleDown` leaves the heap as it is, and the heap property does not
hold afterwards. -/
theorem bubbleDown_stops_above_equal_children :
    (removed tie4).size = 3 ∧
    leftIdx (removed tie4) ROOT_INDEX = 2 ∧ rightIdx (removed tie4) ROOT_INDEX = 3 ∧
    priorityAt (removed tie4) ROOT_INDEX = 5 ∧
    priorityAt (removed tie4) 2 = 3 ∧ priorityAt (removed tie4) 3 = 3 ∧
    bubbleDownIter (removed tie4) ROOT_INDEX = none ∧
    bubbleDown (removed tie4) = Outcome.returned (removed tie4) ∧
    ¬ HeapProperty (removed tie4) := by
  refine ⟨rfl, rfl, rfl, rfl, rfl, rfl, rfl, rfl, ?_⟩
  intro H
  have := H 2 (by decide) (by decide)
  revert this
  decide

/-- C17: on an index-consistent heap, `swap` on two positions of `[1, size]`
exchanges the two nodes (id and priority), makes the index map send each of the
two ids to its new position (also when the positions are equal), and leaves every
other slot, every other index-map entry, the size and the capacity as they were;
when a position is outside `[1, size]` the heap is unchanged. -/
theorem swap_contract (h : MinHeap) (p1 p2 : Int) (hc : IndexConsistent h) :
    ((1 ≤ p1 ∧ p1 ≤ h.size) ∧ (1 ≤ p2 ∧ p2 ≤ h.size) →
      nodeAt (swap h p1 p2) p1 = nodeAt h p2 ∧
      nodeAt (swap h p1 p2) p2 = nodeAt h p1 ∧
      indexOf (swap h p1 p2) (nodeAt h p1).id = p2 ∧
      indexOf (swap h p1 p2) (nodeAt h p2).id = p1 ∧
      (∀ x : Int, x ≠ p1 → x ≠ p2 → nodeAt (swap h p1 p2) x = nodeAt h x) ∧
      (∀ j : Int, j ≠ (nodeAt h p1).id → j ≠ (nodeAt h p2).id →
        indexOf (swap h p1 p2) j = indexOf h j) ∧
      (swap h p1 p2).size = h.size ∧ (swap h p1 p2).capacity = h.capacity) ∧
    (¬ ((1 ≤ p1 ∧ p1 ≤ h.size) ∧ (1 ≤ p2 ∧ p2 ≤ h.size)) → swap h p1 p2 = h) := by
  refine ⟨?_, swap_invalid h p1 p2⟩
  rintro ⟨v1, v2⟩
  unfold nodeAt indexOf
  have i1 := hc.1 p1 v1.1 v1.2
  have i2 := hc.1 p2 v2.1 v2.2
  refine ⟨?_, ?_, ?_, ?_, ?_, ?_, swap_size h p1 p2, swap_capacity h p1 p2⟩
  · rw [swap_arr h p1 p2 v1 v2]
    by_cases e : p1 = p2
    · rw [if_pos e, e]
    · rw [if_neg e, if_pos rfl]
  · rw [swap_arr h p1 p2 v1 v2, if_pos rfl]
  · rw [swap_indexMap h p1 p2 v1 v2]
    by_cases e : (h.arr p1).id = (h.arr p2).id
    · rw [if_pos e]
      rw [e, i2] at i1
      exact i1.symm
    · rw [if_neg e, if_pos rfl]
  · rw [swap_indexMap h p1 p2 v1 v2, if_pos rfl]
  · intro x x1 x2
    rw [swap_arr h p1 p2 v1 v2, if_neg x2, if_neg x1]
  · intro j j1 j2
    rw [swap_indexMap h p1 p2 v1 v2, if_neg j2, if_neg j1]

/-- Witness of C17: positions 1 and 4 of the heap with priorities `1, 3, 3, 5`. -/
theorem swap_contract_witness :
    IndexConsistent tie4 ∧
    ((1 ≤ (1 : Int) ∧ (1 : Int) ≤ tie4.size) ∧ (1 ≤ (4 : Int) ∧ (4 : Int) ≤ tie4.size) →
      nodeAt (swap tie4 1 4) 1 = nodeAt tie4 4 ∧
      nodeAt (swap tie4 1 4) 4 = nodeAt tie4 1 ∧
      indexOf (swap tie4 1 4) (nodeAt tie4 1).id = 4 ∧
      indexOf (swap tie4 1 4) (nodeAt tie4 4).id = 1 ∧
      (∀ x : Int, x ≠ 1 → x ≠ 4 → nodeAt (swap tie4 1 4) x = nodeAt tie4 x) ∧
      (∀ j : Int, j ≠ (nodeAt tie4 1).id → j ≠ (nodeAt tie4 4).id →
        indexOf (swap tie4 1 4) j = indexOf tie4 j) ∧
      (swap tie4 1 4).size = tie4.size ∧ (swap tie4 1 4).capacity = tie4.capacity) ∧
    (¬ ((1 ≤ (1 : Int) ∧ (1 : Int) ≤ tie4.size) ∧ (1 ≤ (4 : Int) ∧ (4 : Int) ≤ tie4.size)) →
      swap tie4 1 4 = tie4) :=
  ⟨(reachable_inv tie4 tie4_reachable).2,
    swap_contract tie4 1 4 (reachable_inv tie4 tie4_reachable).2⟩

theorem bubbleDownLoop_succ (fuel : Nat) (h : MinHeap) (c : Int) :
    bubbleDownLoop (fuel + 1) h c =
      match bubbleDownIter h c with
      | none => Outcome.returned h
      | some (h2, c2) => bubbleDownLoop fuel h2 c2 := by
  rw [bubbleDownLoop]
  unfold bubbleDownIter
  simp only []
  split_ifs <;> rfl

theorem bubbleDownIter_some (h : MinHeap) (c : Int) (h2 : MinHeap) (c2 : Int)
    (e : bubbleDownIter h c = some (h2, c2)) :
    h2 = swap h c c2 ∧ (c2 = leftIdx h c ∨ c2 = rightIdx h c) ∧
      priorityAt h c2 < priorityAt h c := by
  unfold bubbleDownIter at e
  simp only [] at e
  split_ifs at e with a1 a2 a3 a4 a5 a6 a7
  · cases e; exact ⟨rfl, Or.inr rfl, a3.2⟩
  · cases e; exact ⟨rfl, Or.inl rfl, a5.2⟩
  · cases e; exact ⟨rfl, Or.inl rfl, a6.1⟩
  · cases e; exact ⟨rfl, Or.inr rfl, a7.1⟩

theorem bubbleDownIter_nothing (h : MinHeap) : bubbleDownIter h NOTHING = none := by
  have hl : leftIdx h NOTHING = NOTHING := by
    rcases leftIdx_cases h NOTHING with ⟨e, _⟩ | ⟨_, h1, _⟩
    · exact e
    · unfold NOTHING at h1; omega
  have hr : rightIdx h NOTHING = NOTHING := by
    rcases rightIdx_cases h NOTHING with ⟨e, _⟩ | ⟨_, h1, _⟩
    · exact e
    · unfold NOTHING at h1; omega
  unfold bubbleDownIter
  simp only [hl, hr, and_self, if_true]

theorem swap_nothing (h : MinHeap) (c : Int) : swap h c NOTHING = h :=
  swap_invalid h c NOTHING (by unfold NOTHING; omega)

theorem child_cases (h : MinHeap) (c c2 : Int) (hc : 1 ≤ c)
    (e : c2 = leftIdx h c ∨ c2 = rightIdx h c) :
    c2 = NOTHING ∨ (c < c2 ∧ (1 ≤ c2 ∧ c2 ≤ h.size) ∧ c2 / 2 = c) := by
  rcases e with e | e
  · rcases leftIdx_cases h c with ⟨e2, _⟩ | ⟨e2, h1, h2⟩
    · left; rw [e, e2]
    · right; rw [e, e2]; omega
  · rcases rightIdx_cases h c with ⟨e2, _⟩ | ⟨e2, h1, h2⟩
    · left; rw [e, e2]
    · right; rw [e, e2]; omega

theorem bubbleDownIter_progress (h : MinHeap) (c : Int) (h2 : MinHeap) (c2 : Int)
    (hc : 1 ≤ c) (e : bubbleDownIter h c = some (h2, c2)) :
    h2.size = h.size ∧
      ((c < c2 ∧ isValidIndex h2 c2 = true) ∨
        (c2 = NOTHING ∧ bubbleDownIter h2 c2 = none)) := by
  obtain ⟨e1, e2, _⟩ := bubbleDownIter_some h c h2 c2 e
  have sz : h2.size = h.size := by rw [e1, swap_size]
  refine ⟨sz, ?_⟩
  rcases child_cases h c c2 hc e2 with hn | ⟨h1, hv, _⟩
  · right
    rw [hn]
    exact ⟨rfl, bubbleDownIter_nothing h2⟩
  · left
    refine ⟨h1, ?_⟩
    rw [isValidIndex_iff, sz]
    exact hv

theorem bubbleDownLoop_mono : ∀ (fuel : Nat) (h : MinHeap) (c : Int) (h2 : MinHeap),
    bubbleDownLoop fuel h c = Outcome.returned h2 →
    bubbleDownLoop (fuel + 1) h c = Outcome.returned h2 := by
  intro fuel
  induction fuel with
  | zero => intro h c h2 e; simp [bubbleDownLoop] at e
  | succ n ih =>
    intro h c h2 e
    rw [bubbleDownLoop_succ] at e ⊢
    cases hi : bubbleDownIter h c with
    | none => rw [hi] at e; exact e
    | some r =>
      obtain ⟨h3, c3⟩ := r
      rw [hi] at e
      exact ih h3 c3 h2 e

theorem bubbleDownLoop_stable (n : Nat) (h : MinHeap) (c : Int) (h2 : MinHeap)
    (e : bubbleDownLoop n h c = Outcome.returned h2) :
    ∀ fuel : Nat, n ≤ fuel → bubbleDownLoop fuel h c = Outcome.returned h2 := by
  intro fuel hf
  induction fuel with
  | zero =>
    have : n = 0 := by omega
    rw [this] at e
    exact e
  | succ m ih =>
    by_cases hm : n = m + 1
    · rw [hm] at e; exact e
    · exact bubbleDownLoop_mono m h c h2 (ih (by omega))

theorem bubbleUpFuel_mono : ∀ (fuel : Nat) (h : MinHeap) (i : Int) (h2 : MinHeap),
    bubbleUpFuel fuel h i = Outcome.returned h2 →
    bubbleUpFuel (fuel + 1) h i = Outcome.returned h2 := by
  intro fuel
  induction fuel with
  | zero => intro h i h2 e; simp [bubbleUpFuel] at e
  | succ n ih =>
    intro h i h2 e
    unfold bubbleUpFuel at e ⊢
    simp only [] at e ⊢
    split_ifs at e ⊢ with a1 a2 a3 a4
    · exact e
    · exact e
    · exact e
    · exact ih _ _ h2 e
    · exact e

theorem bubbleUpFuel_stable (n : Nat) (h : MinHeap) (i : Int) (h2 : MinHeap)
    (e : bubbleUpFuel n h i = Outcome.returned h2) :
    ∀ fuel : Nat, n ≤ fuel → bubbleUpFuel fuel h i = Outcome.returned h2 := by
  intro fuel hf
  induction fuel with
  | zero =>
    have : n = 0 := by omega
    rw [this] at e
    exact e
  | succ m ih =>
    by_cases hm : n = m + 1
    · rw [hm] at e; exact e
    · exact bubbleUpFuel_mono m h i h2 (ih (by omega))

theorem bubbleDown_eq_loop (h : MinHeap) :
    bubbleDown h = bubbleDownLoop (h.size.toNat + 2) h ROOT_INDEX := by
  unfold bubbleDown
  cases hv : isValidIndex h ROOT_INDEX
  · rw [isValidIndex_false_iff] at hv
    unfold ROOT_INDEX at hv
    have hl : leftIdx h ROOT_INDEX = NOTHING := by
      rcases leftIdx_cases h ROOT_INDEX with ⟨e, _⟩ | ⟨_, _, h2⟩
      · exact e
      · unfold ROOT_INDEX at h2; omega
    have hr : rightIdx h ROOT_INDEX = NOTHING := by
      rcases rightIdx_cases h ROOT_INDEX with ⟨e, _⟩ | ⟨_, _, h2⟩
      · exact e
      · unfold ROOT_INDEX at h2; omega
    have hi : bubbleDownIter h ROOT_INDEX = none := by
      unfold bubbleDownIter
      simp only [hl, hr, and_self, if_true]
    simp only [Bool.not_false, if_true]
    rw [show h.size.toNat + 2 = (h.size.toNat + 1) + 1 from rfl, bubbleDownLoop_succ, hi]
  · simp only [Bool.not_true, Bool.false_eq_true, if_false]

/-- C18: the loop of `bubbleDown` and the recursion of `bubbleUp` end on every
heap state.  An iteration of the loop from a position `curRoot >= 1` either
returns or moves `curRoot` to a larger position of `[1, size]` or to `NOTHING`,
from where the next iteration returns; `bubbleDown` returns within `size + 2`
iterations and `bubbleUp` within `nodeIndex + 1` calls, and a larger budget gives
the same result. -/
theorem loops_terminate :
    (∀ (h : MinHeap) (c : Int) (h2 : MinHeap) (c2 : Int), 1 ≤ c →
      bubbleDownIter h c = some (h2, c2) →
      h2.size = h.size ∧
        ((c < c2 ∧ isValidIndex h2 c2 = true) ∨
          (c2 = NOTHING ∧ bubbleDownIter h2 c2 = none))) ∧
    (∀ (fuel : Nat) (h : MinHeap) (c : Int),
      bubbleDownLoop (fuel + 1) h c =
        match bubbleDownIter h c with
        | none => Outcome.returned h
        | some (h2, c2) => bubbleDownLoop fuel h2 c2) ∧
    (∀ h : MinHeap, ∃ h2, bubbleDown h = Outcome.returned h2 ∧
      ∀ fuel : Nat, h.size.toNat + 2 ≤ fuel →
        bubbleDownLoop fuel h ROOT_INDEX = Outcome.returned h2) ∧
    (∀ (h : MinHeap) (i : Int), ∃ h2, bubbleUp h i = Outcome.returned h2 ∧
      ∀ fuel : Nat, i.toNat + 1 ≤ fuel → bubbleUpFuel fuel h i = Outcome.returned h2) := by
  refine ⟨bubbleDownIter_progress, bubbleDownLoop_succ, ?_, ?_⟩
  · intro h
    obtain ⟨h2, e, _⟩ := bubbleDown_returns h
    refine ⟨h2, e, ?_⟩
    rw [bubbleDown_eq_loop] at e
    exact bubbleDownLoop_stable _ h ROOT_INDEX h2 e
  · intro h i
    obtain ⟨h2, e, _⟩ := bubbleUp_returns h i
    exact ⟨h2, e, bubbleUpFuel_stable _ h i h2 e⟩

/-- Witness of C18: from the heap with priorities `3, 1, 3, 5` the iteration at
the root moves to position 2; from the heap with priorities `3, 3` it moves to
`NOTHING`, where the next iteration returns. -/
theorem loops_terminate_witness :
    ((swap tie4 1 2).size = tie4.size ∧
      (((1 : Int) < 2 ∧ isValidIndex (swap (swap tie4 1 2) 1 2) 2 = true) ∨
        ((2 : Int) = NOTHING ∧ bubbleDownIter (swap (swap tie4 1 2) 1 2) 2 = none))) ∧
    (equal2.size = equal2.size ∧
      (((1 : Int) < NOTHING ∧ isValidIndex equal2 NOTHING = true) ∨
        (NOTHING = NOTHING ∧ bubbleDownIter equal2 NOTHING = none))) ∧
    (∃ h2, bubbleDown (removed tie4) = Outcome.returned h2) ∧
    (∃ h2, bubbleUp (appended tie3 0 3) 4 = Outcome.returned h2) := by
  refine ⟨?_, ?_, ?_, ?_⟩
  · have := loops_terminate.1 (swap tie4 1 2) 1 (swap (swap tie4 1 2) 1 2) 2 (by decide) rfl
    exact ⟨rfl, this.2⟩
  · exact loops_terminate.1 equal2 1 equal2 NOTHING (by decide) rfl
  · obtain ⟨h2, e, _⟩ := loops_terminate.2.2.1 (removed tie4)
    exact ⟨h2, e⟩
  · obtain ⟨h2, e, _⟩ := loops_terminate.2.2.2 (appended tie3 0 3) 4
    exact ⟨h2, e⟩

theorem wrap32_of_fits (x : Int) (h1 : -2147483648 ≤ x) (h2 : x ≤ 2147483647) :
    wrap32 x = x := by
  unfold wrap32
  omega

theorem index_or_nothing (h : MinHeap) (x : Int) :
    (if !isValidIndex h x then NOTHING else x) =
      (if 1 ≤ x ∧ x ≤ h.size then x else NOTHING) := by
  cases hv : isValidIndex h x
  · rw [isValidIndex_false_iff] at hv
    rw [if_neg hv]; rfl
  · rw [isValidIndex_iff] at hv
    rw [if_pos hv]; rfl

theorem index_or_nothing_valid (h : MinHeap) (x : Int)
    (hx : (if !isValidIndex h x then NOTHING else x) ≠ NOTHING) :
    1 ≤ (if !isValidIndex h x then NOTHING else x) ∧
      (if !isValidIndex h x then NOTHING else x) ≤ h.size := by
  rw [index_or_nothing] at hx ⊢
  split_ifs at hx ⊢ with hv
  · exact hv
  · exact absurd rfl hx

/-- C19 (amended): for every heap and every `int` `p` with
`-2^30 <= p <= 2^30 - 1`, where `2p` and `2p+1` fit a 32-bit `int`,
`leftIdx(heap, p)` is `2p` when `1 <= 2p <= size` and `NOTHING` otherwise, and
`rightIdx(heap, p)` likewise with `2p+1`; there the 32-bit functions agree with
`leftIdx` and `rightIdx` of the model.  For every `p`, `parentIdx(heap, p)` is
`p / 2` (truncating division of C) when `1 <= p / 2 <= size` and `NOTHING`
otherwise, `parentIdx` of the root is `NOTHING`, and a result other than
`NOTHING` of any of the three is a position of `[1, size]`. -/
theorem position_arithmetic_in_range (h : MinHeap) (p : Int) :
    (-1073741824 ≤ p ∧ p ≤ 1073741823 →
      leftIdx32 h p = (if 1 ≤ 2 * p ∧ 2 * p ≤ h.size then 2 * p else NOTHING) ∧
      rightIdx32 h p =
        (if 1 ≤ 2 * p + 1 ∧ 2 * p + 1 ≤ h.size then 2 * p + 1 else NOTHING) ∧
      leftIdx32 h p = leftIdx h p ∧ rightIdx32 h p = rightIdx h p) ∧
    parentIdx h p =
      (if 1 ≤ Int.tdiv p 2 ∧ Int.tdiv p 2 ≤ h.size then Int.tdiv p 2 else NOTHING) ∧
    parentIdx h ROOT_INDEX = NOTHING ∧
    (leftIdx32 h p ≠ NOTHING → 1 ≤ leftIdx32 h p ∧ leftIdx32 h p ≤ h.size) ∧
    (rightIdx32 h p ≠ NOTHING → 1 ≤ rightIdx32 h p ∧ rightIdx32 h p ≤ h.size) ∧
    (parentIdx h p ≠ NOTHING → 1 ≤ parentIdx h p ∧ parentIdx h p ≤ h.size) := by
  refine ⟨?_, index_or_nothing h (Int.tdiv p 2), ?_, index_or_nothing_valid h _,
    index_or_nothing_valid h _, index_or_nothing_valid h _⟩
  · rintro ⟨lo, hi⟩
    have w1 : wrap32 (2 * p) = 2 * p := wrap32_of_fits _ (by omega) (by omega)
    have w2 : wrap32 (wrap32 (2 * p) + 1) = 2 * p + 1 := by
      rw [w1]; exact wrap32_of_fits _ (by omega) (by omega)
    have el : leftIdx32 h p = leftIdx h p := by
      unfold leftIdx32 leftIdx; rw [w1]
    have er : rightIdx32 h p = rightIdx h p := by
      unfold rightIdx32 rightIdx; rw [w2]
    refine ⟨?_, ?_, el, er⟩
    · rw [el]; exact index_or_nothing h (2 * p)
    · rw [er]; exact index_or_nothing h (2 * p + 1)
  · have : parentIdx h ROOT_INDEX =
        (if 1 ≤ Int.tdiv ROOT_INDEX 2 ∧ Int.tdiv ROOT_INDEX 2 ≤ h.size
          then Int.tdiv ROOT_INDEX 2 else NOTHING) :=
      index_or_nothing h (Int.tdiv ROOT_INDEX 2)
    rw [this]
    have z : Int.tdiv ROOT_INDEX 2 = 0 := by decide
    rw [z, if_neg (by omega)]

/-- Witness of C19 (amended) on the heap of size 4: position 2 has the left
child 4, no right child and the parent 1; position `-1` has no parent. -/
theorem position_arithmetic_in_range_witness :
    leftIdx32 tie4 2 = 4 ∧ rightIdx32 tie4 2 = NOTHING ∧
    leftIdx32 tie4 2 = leftIdx tie4 2 ∧ rightIdx32 tie4 2 = rightIdx tie4 2 ∧
    parentIdx tie4 2 = 1 ∧ parentIdx tie4 (-1) = NOTHING ∧
    parentIdx tie4 ROOT_INDEX = NOTHING := by
  have a := position_arithmetic_in_range tie4 2
  have b := position_arithmetic_in_range tie4 (-1)
  have r := a.1 ⟨by decide, by decide⟩
  refine ⟨?_, ?_, r.2.2.1, r.2.2.2, ?_, ?_, a.2.2.1⟩
  · rw [r.1]; decide
  · rw [r.2.1]; decide
  · rw [a.2.1]; decide
  · rw [b.2.1]; decide

/-- C19 (as stated, fails): on the heap of size 4, `leftIdx(heap, -2147483647)`
is 2 and `rightIdx(heap, -2147483647)` is 3, and `rightIdx(heap, -2147483648)`
is 1: the product wraps in 32-bit arithmetic to a position of `[1, size]`,
while `2p` and `2p+1` themselves lie outside `[1, size]`, where the claim gives
`NOTHING`. -/
theorem child_index_wraps_to_valid_position :
    tie4.size = 4 ∧
    leftIdx32 tie4 (-2147483647) = 2 ∧
    (if 1 ≤ 2 * (-2147483647 : Int) ∧ 2 * (-2147483647 : Int) ≤ tie4.size
      then 2 * (-2147483647 : Int) else NOTHING) = NOTHING ∧
    rightIdx32 tie4 (-2147483647) = 3 ∧
    (if 1 ≤ 2 * (-2147483647 : Int) + 1 ∧ 2 * (-2147483647 : Int) + 1 ≤ tie4.size
      then 2 * (-2147483647 : Int) + 1 else NOTHING) = NOTHING ∧
    rightIdx32 tie4 (-2147483648) = 1 ∧
    (2 : Int) ≠ NOTHING ∧ (3 : Int) ≠ NOTHING ∧ (1 : Int) ≠ NOTHING := by
  refine ⟨rfl, ?_, ?_, ?_, ?_, ?_, ?_, ?_, ?_⟩ <;> decide

theorem bubbleDownIter_of_heapProperty (h : MinHeap) (hp : HeapProperty h)
    (hs : 1 ≤ h.size) (h2 : MinHeap) (c2 : Int)
    (e : bubbleDownIter h ROOT_INDEX = some (h2, c2)) : h2 = h ∧ c2 = NOTHING := by
  obtain ⟨e1, e2, hlt⟩ := bubbleDownIter_some h ROOT_INDEX h2 c2 e
  rcases child_cases h ROOT_INDEX c2 (le_refl _) e2 with hn | ⟨h1, hv, hpar⟩
  · rw [e1, hn]
    exact ⟨swap_nothing h ROOT_INDEX, rfl⟩
  · exfalso
    unfold ROOT_INDEX at h1 hpar hlt
    have a := hp c2 (by omega) hv.2
    rw [hpar] at a
    rw [priorityAt_valid h c2 hv.1 hv.2, priorityAt_valid h 1 (le_refl _) hs] at hlt
    omega

theorem equal_left_only_path (h : MinHeap) (hs : h.size = 2)
    (he : priorityAt h ROOT_INDEX = priorityAt h 2)
    (hn : priorityAt h ROOT_INDEX > NOTHING) :
    leftIdx h ROOT_INDEX = 2 ∧ rightIdx h ROOT_INDEX = NOTHING ∧
      priorityAt h (rightIdx h ROOT_INDEX) = NOTHING ∧
      swap h ROOT_INDEX (rightIdx h ROOT_INDEX) = h ∧
      bubbleDownIter h ROOT_INDEX =
        some (swap h ROOT_INDEX (rightIdx h ROOT_INDEX), rightIdx h ROOT_INDEX) := by
  have hl : leftIdx h ROOT_INDEX = 2 := by
    rcases leftIdx_cases h ROOT_INDEX with ⟨_, h1⟩ | ⟨e, _, _⟩
    · unfold ROOT_INDEX at h1; omega
    · rw [e]; rfl
  have hr : rightIdx h ROOT_INDEX = NOTHING := by
    rcases rightIdx_cases h ROOT_INDEX with ⟨e, _⟩ | ⟨_, _, h2⟩
    · exact e
    · unfold ROOT_INDEX at h2; omega
  have hpn : priorityAt h NOTHING = NOTHING := by
    unfold priorityAt
    rw [(isValidIndex_false_iff h NOTHING).2 (by unfold NOTHING; omega)]
    rfl
  refine ⟨hl, hr, by rw [hr, hpn], by rw [hr]; exact swap_nothing h ROOT_INDEX, ?_⟩
  have n2 : ¬ ((2 : Int) = NOTHING) := by decide
  unfold bubbleDownIter
  simp only [hl, hr, hpn, he, n2, false_and, true_and, if_false, lt_irrefl, gt_iff_lt]
  rw [he] at hn
  have hn : NOTHING < priorityAt h 2 := hn
  simp only [hn, and_self, if_true]

/-- C20: on a heap that satisfies the heap property, `bubbleDown` returns and
leaves the heap as it is: size, capacity, every slot and every index-map entry.
This includes the path in which the root has only a left child, of equal
priority above `-1`: the iteration then reads `priorityAt` of the absent right
child as `NOTHING`, calls `swap` with the index `NOTHING`, which changes nothing,
and continues with `curRoot == NOTHING`. -/
theorem bubbleDown_identity (h : MinHeap) (hp : HeapProperty h) :
    bubbleDown h = Outcome.returned h ∧
    (h.size = 2 → priorityAt h ROOT_INDEX = priorityAt h 2 →
      priorityAt h ROOT_INDEX > NOTHING →
      leftIdx h ROOT_INDEX = 2 ∧ rightIdx h ROOT_INDEX = NOTHING ∧
      priorityAt h (rightIdx h ROOT_INDEX) = NOTHING ∧
      swap h ROOT_INDEX (rightIdx h ROOT_INDEX) = h ∧
      bubbleDownIter h ROOT_INDEX =
        some (swap h ROOT_INDEX (rightIdx h ROOT_INDEX), rightIdx h ROOT_INDEX)) := by
  refine ⟨?_, equal_left_only_path h⟩
  unfold bubbleDown
  cases hv : isValidIndex h ROOT_INDEX
  · simp
  · rw [isValidIndex_iff] at hv
    simp only [Bool.not_true, Bool.false_eq_true, if_false]
    rw [show h.size.toNat + 2 = (h.size.toNat + 1) + 1 from rfl, bubbleDownLoop_succ]
    cases hi : bubbleDownIter h ROOT_INDEX with
    | none => rfl
    | some r =>
      obtain ⟨h2, c2⟩ := r
      obtain ⟨e1, e2⟩ := bubbleDownIter_of_heapProperty h hp hv.2 h2 c2 hi
      rw [e1, e2]
      show bubbleDownLoop (h.size.toNat + 1) h NOTHING = Outcome.returned h
      rw [bubbleDownLoop_succ, bubbleDownIter_nothing]

theorem equal2_heapProperty : HeapProperty equal2 := by
  intro p h1 h2
  have : equal2.size = 2 := rfl
  rw [this] at h2
  interval_cases p
  decide

/-- Witness of C20: the heap with priorities `3, 3`, a root with only a left
child of equal priority. -/
theorem bubbleDown_identity_witness :
    HeapProperty equal2 ∧
    bubbleDown equal2 = Outcome.returned equal2 ∧
    leftIdx equal2 ROOT_INDEX = 2 ∧ rightIdx equal2 ROOT_INDEX = NOTHING ∧
    priorityAt equal2 (rightIdx equal2 ROOT_INDEX) = NOTHING ∧
    swap equal2 ROOT_INDEX (rightIdx equal2 ROOT_INDEX) = equal2 ∧
    bubbleDownIter equal2 ROOT_INDEX =
      some (swap equal2 ROOT_INDEX (rightIdx equal2 ROOT_INDEX), rightIdx equal2 ROOT_INDEX) :=
  ⟨equal2_heapProperty, (bubbleDown_identity equal2 equal2_heapProperty).1,
    (bubbleDown_identity equal2 equal2_heapProperty).2 rfl (by decide) (by decide)⟩

end MinHeapC
